import Mathlib

/-!
Verification of the allocator / garbage collector of src/alloc.c
(commercial-emacs).  Each section shallowly embeds the C functions a
claim is about; machine integers are modelled as Int/Nat, pointers as
natural-number addresses or abstract identifiers, and the mutable
globals of alloc.c as explicit state records.
-/

namespace Alloc

/-! ### Basic machine constants (64-bit build).

word_size and the C struct sizes below come from lisp.h, which is not
part of src/; their exact values are irrelevant to every theorem in
this file, they only feed total_bytes_of_live_objects.  -/

def word_size : Nat := 8

def sizeof_Lisp_Cons : Nat := 16

def sizeof_Lisp_Symbol : Nat := 48

def sizeof_Lisp_Float : Nat := 8

def sizeof_interval : Nat := 56

def sizeof_Lisp_String : Nat := 32

/-- alloc.c line 72: GC_DEFAULT_THRESHOLD = (1 << 17) * word_size. -/
def GC_DEFAULT_THRESHOLD : Int := (2 ^ 17) * (word_size : Int)

/-! ### gcstat (alloc.c lines 90-102): last recorded live / free counts. -/

structure GCStat where
  total_conses : Nat
  total_free_conses : Nat
  total_symbols : Nat
  total_free_symbols : Nat
  total_strings : Nat
  total_free_strings : Nat
  total_string_bytes : Nat
  total_vectors : Nat
  total_vector_slots : Nat
  total_free_vector_slots : Nat
  total_floats : Nat
  total_free_floats : Nat
  total_intervals : Nat
  total_free_intervals : Nat
  total_buffers : Nat
  deriving Repr, DecidableEq

/-- alloc.c total_bytes_of_live_objects (lines 4752-4762). -/
def total_bytes_of_live_objects (g : GCStat) : Nat :=
  g.total_conses * sizeof_Lisp_Cons
    + g.total_symbols * sizeof_Lisp_Symbol
    + g.total_string_bytes
    + g.total_vector_slots * word_size
    + g.total_floats * sizeof_Lisp_Float
    + g.total_intervals * sizeof_interval
    + g.total_strings * sizeof_Lisp_String

/-! ### Global collector state.

gc_cons_percentage is a Lisp variable; the code checks FLOATP before
using it, so we model it as Option ℚ (none = not a float).  The
XFLOAT_DATA double multiplication followed by conversion to intmax_t
truncates toward zero, which we model with Int.tdiv on rationals.  -/

structure GCState where
  gc_inhibited : Bool
  gc_in_progress : Bool
  gc_cons_threshold : Int
  gc_cons_percentage : Option ℚ
  bytes_since_gc : Int
  bytes_between_gc : Int
  gcstat : GCStat
  deriving Repr, DecidableEq

/-- C conversion of a (real-valued) product to an integer: truncation
toward zero, as the double-to-intmax_t cast in
update_bytes_between_gc performs.  -/
def c_trunc (q : ℚ) : Int := Int.tdiv q.num (q.den : Int)

/-- alloc.c update_bytes_between_gc (lines 4967-4975): the looser of
the byte threshold and the percentage-of-live-bytes constraint
prevails.  -/
def update_bytes_between_gc (st : GCState) : GCState :=
  let threshold0 : Int := st.gc_cons_threshold
  let threshold1 : Int :=
    match st.gc_cons_percentage with
    | some p => c_trunc (p * (total_bytes_of_live_objects st.gcstat : ℚ))
    | none => threshold0
  { st with bytes_between_gc := max threshold0 threshold1 }

/-- alloc.c watch_gc_cons_threshold (lines 4979-4993): when the new
value is an integer, store max (newval, GC_DEFAULT_THRESHOLD >> 3)
into gc_cons_threshold and immediately recompute bytes_between_gc.  -/
def watch_gc_cons_threshold (st : GCState) (newval : Option Int) : GCState :=
  match newval with
  | some t =>
      update_bytes_between_gc
        { st with gc_cons_threshold := max t (Int.tdiv GC_DEFAULT_THRESHOLD 8) }
  | none => st

/-- alloc.c watch_gc_cons_percentage (lines 4997-5007): when the new
value is a float, store it and immediately recompute
bytes_between_gc.  -/
def watch_gc_cons_percentage (st : GCState) (newval : Option ℚ) : GCState :=
  match newval with
  | some p =>
      update_bytes_between_gc { st with gc_cons_percentage := some p }
  | none => st

/-- alloc.c garbage_collect (lines 5012-5154), with the actual
mark/sweep work (which updates gcstat and the rest of the allocator
state) abstracted as the argument doCollect: if gc_inhibited or
gc_in_progress, return immediately without touching anything;
otherwise run the collection body, zero bytes_since_gc, recompute
bytes_between_gc, and clear gc_in_progress.  -/
def garbage_collect (doCollect : GCState → GCState) (st : GCState) : GCState :=
  if st.gc_inhibited || st.gc_in_progress then st
  else
    let st1 := doCollect { st with gc_in_progress := true }
    let st2 := update_bytes_between_gc { st1 with bytes_since_gc := 0 }
    { st2 with gc_in_progress := false }

/-- Names of the per-kind statistics entries returned by the
garbage-collect Lisp function (alloc.c lines 5172-5198).  -/
inductive StatName where
  | conses | symbols | strings | string_bytes | vectors
  | vector_slots | floats | intervals | buffers
  deriving Repr, DecidableEq

/-- One (NAME SIZE USED FREE) entry; FREE is absent for the
three-element entries (string-bytes, vectors, buffers).  -/
structure StatEntry where
  name : StatName
  size : Nat
  used : Nat
  free : Option Nat
  deriving Repr, DecidableEq

/-- The statistics list built by Fgarbage_collect (lines 5172-5199). -/
def gc_stats_list (g : GCStat) : List StatEntry :=
  [ ⟨.conses, sizeof_Lisp_Cons, g.total_conses, some g.total_free_conses⟩,
    ⟨.symbols, sizeof_Lisp_Symbol, g.total_symbols, some g.total_free_symbols⟩,
    ⟨.strings, sizeof_Lisp_String, g.total_strings, some g.total_free_strings⟩,
    ⟨.string_bytes, 1, g.total_string_bytes, none⟩,
    ⟨.vectors, word_size + word_size, g.total_vectors, none⟩,
    ⟨.vector_slots, word_size, g.total_vector_slots, some g.total_free_vector_slots⟩,
    ⟨.floats, sizeof_Lisp_Float, g.total_floats, some g.total_free_floats⟩,
    ⟨.intervals, sizeof_interval, g.total_intervals, some g.total_free_intervals⟩,
    ⟨.buffers, 32, g.total_buffers, none⟩ ]

/-- alloc.c Fgarbage_collect (lines 5156-5200): return nil (none) when
gc_inhibited, otherwise call garbage_collect and return the per-kind
statistics list.  Note that gc_in_progress is not checked here.  -/
def Fgarbage_collect (doCollect : GCState → GCState) (st : GCState) :
    GCState × Option (List StatEntry) :=
  if st.gc_inhibited then (st, none)
  else
    let st2 := garbage_collect doCollect st
    (st2, some (gc_stats_list st2.gcstat))

/-- alloc.c Fgarbage_collect_maybe (lines 5202-5223): run
garbage_collect when FACTOR >= 1 and bytes_since_gc >
bytes_between_gc / FACTOR (C integer division); return whether the
trigger fired.  -/
def Fgarbage_collect_maybe (doCollect : GCState → GCState) (st : GCState)
    (fact : Nat) : GCState × Bool :=
  if 1 ≤ fact ∧ st.bytes_since_gc > Int.tdiv st.bytes_between_gc (fact : Int) then
    (garbage_collect doCollect st, true)
  else (st, false)

/-- Modelled from the spec: the automatic allocation-path trigger
(maybe_garbage_collect, which lisp.h inlines and which is not part of
src/) invokes the collector exactly when cumulative
bytes-since-last-collection exceed the effective threshold
bytes_between_gc.  -/
def maybe_garbage_collect (doCollect : GCState → GCState) (st : GCState) :
    GCState × Bool :=
  if st.bytes_since_gc > st.bytes_between_gc then
    (garbage_collect doCollect st, true)
  else (st, false)

/-! ### memory_full (alloc.c lines 3295-3315). -/

/-- State touched by memory_full: the initialized flag, the Lisp
variable Vmemory_full (Qt/Qnil as Bool), and the preallocated
Vmemory_signal_data payload (built in pure space at startup; an opaque
token here).  -/
structure MemFullState where
  initialized : Bool
  memory_full : Bool
  memory_signal_data : Nat
  deriving Repr, DecidableEq

/-- What memory_full does after updating the state: terminate the
process (fatal, via the pre-initialization path) or raise the
recoverable memory-full signal, carrying the payload it passed to
xsignal.  -/
inductive MemFullOutcome where
  | fatal
  | signaled (payload : Nat)
  deriving Repr, DecidableEq

/-- alloc.c memory_full (lines 3295-3315).  NBYTES is the size of the
failed request; probe_ok tells whether the 16 KiB probe malloc (a call
into the system allocator, hence an oracle here) succeeds.  Before
initialization the function is fatal.  Otherwise it sets Vmemory_full,
but clears it again when the failed request was larger than
ENOUGH = 1 << 14 and the probe allocation of ENOUGH bytes succeeds;
finally it signals with the preallocated Vmemory_signal_data.  -/
def memory_full (st : MemFullState) (nbytes : Nat) (probe_ok : Bool) :
    MemFullState × MemFullOutcome :=
  let enough : Nat := 2 ^ 14
  if !st.initialized then (st, .fatal)
  else
    let st1 := { st with memory_full := true }
    let st2 :=
      if nbytes > enough && probe_ok then { st1 with memory_full := false }
      else st1
    (st2, .signaled st.memory_signal_data)

/-! ### Concrete example states (used by closed counterexample and
witness theorems below). -/

def gcstat_ex : GCStat :=
  ⟨10, 2, 5, 1, 4, 0, 100, 3, 30, 6, 2, 0, 1, 0, 1⟩

/-- A collector state in which a collection is in progress (as during
run_finalizers, which executes user code before garbage_collect resets
gc_in_progress) but collection is not inhibited.  -/
def gcstate_in_progress : GCState :=
  { gc_inhibited := false
    gc_in_progress := true
    gc_cons_threshold := 800000
    gc_cons_percentage := some (1 / 10)
    bytes_since_gc := 5
    bytes_between_gc := 800000
    gcstat := gcstat_ex }

end Alloc

/-! ### String storage manager (alloc.c lines 998-1650).

String payloads (sdata) are sub-allocated out of sblocks.  Payloads of
strings larger than LARGE_STRING_BYTES, and immovable (pinned)
payloads, get a dedicated sblock on the large_sblocks list; all others
are packed sequentially into shared sblocks of size SBLOCK_SIZE,
chained oldest to current.  We model an sblock as the ordered list of
sdata records between its data start and its next_free cursor, and the
shared chain as a list whose last element is current_sblock.  -/

namespace Str

/-- alloc.c line 1025. -/
def LARGE_STRING_BYTES : Nat := 2 ^ 10

/-- alloc.c line 1021: MALLOC_SIZE_NEAR (1 << 13) with
MALLOC_ALIGNMENT = 16 and sizeof (size_t) = 8, i.e. 8192 - 8.  -/
def SBLOCK_SIZE : Nat := 8184

/-- offsetof (struct sdata, data): one pointer (line 1062). -/
def SDATA_DATA_OFFSET : Nat := 8

/-- offsetof (struct sblock, data): the next and next_free pointers. -/
def sblock_data_offset : Nat := 16

/-- GC_STRING_EXTRA is 0 unless GC_CHECK_STRING_OVERRUN (line 1140). -/
def GC_STRING_EXTRA : Nat := 0

/-- alloc.c sdata_size (lines 1128-1137): max (SDATA_DATA_OFFSET + n
+ 1, sizeof (sdata) = 16) rounded up to a multiple of 8.  -/
def sdata_size (n : Nat) : Nat :=
  (max (SDATA_DATA_OFFSET + n + 1) 16 + 7) / 8 * 8

/-- One sdata record: the back-pointer to its owning string (none =
free), the byte length (STRING_BYTES when live, N.NBYTES when free),
and the payload contents.  -/
structure SData where
  owner : Option Nat
  nbytes : Nat
  bytes : List Nat
  deriving Repr, DecidableEq

/-- An sblock: the sdata records laid out between data and next_free. -/
structure SBlock where
  entries : List SData
  deriving Repr, DecidableEq

/-- Bytes an sdata occupies in its sblock. -/
def entrySize (e : SData) : Nat := sdata_size e.nbytes + GC_STRING_EXTRA

/-- next_free minus the data start: total bytes of the entries. -/
def usedBytes (es : List SData) : Nat := (es.map entrySize).sum

/-- The string-data heap: dedicated large/pinned sblocks and the
shared chain from oldest_sblock to current_sblock (last element).  -/
structure StringHeap where
  large_sblocks : List SBlock
  small_sblocks : List SBlock
  deriving Repr, DecidableEq

/-- All sdata of the shared (small) chain, in chain order. -/
def smallEntries (h : StringHeap) : List SData :=
  (h.small_sblocks.map SBlock.entries).flatten

/-- All sdata of the dedicated (large/pinned) sblocks. -/
def largeEntries (h : StringHeap) : List SData :=
  (h.large_sblocks.map SBlock.entries).flatten

/-- Payload bytes of string SID if its sdata is in the shared chain. -/
def small_payload (h : StringHeap) (sid : Nat) : Option (List Nat) :=
  ((smallEntries h).find? (fun e => e.owner = some sid)).map SData.bytes

/-- Payload bytes of string SID if its sdata is in a dedicated sblock. -/
def large_payload (h : StringHeap) (sid : Nat) : Option (List Nat) :=
  ((largeEntries h).find? (fun e => e.owner = some sid)).map SData.bytes

/-- alloc.c allocate_string_data (lines 1313-1380).  BYTES is the
payload content the caller will store (the C function only reserves
and optionally clears the space; carrying the contents here lets the
compaction theorems speak about payload bytes).  Requests larger than
LARGE_STRING_BYTES, or immovable ones, get a dedicated sblock pushed
onto large_sblocks; others are appended at current_sblock's next_free
cursor, opening a fresh shared sblock when the current one cannot fit
sdata_size (nbytes) + GC_STRING_EXTRA more bytes (or none exists).
The caller guarantees nbytes <= STRING_BYTES_MAX (string_overflow
signals before any allocation otherwise).  -/
def allocate_string_data (h : StringHeap) (sid : Nat) (bytes : List Nat)
    (immovable : Bool) : StringHeap :=
  let nbytes := bytes.length
  let needed := sdata_size nbytes
  let entry : SData := ⟨some sid, nbytes, bytes⟩
  if LARGE_STRING_BYTES < nbytes ∨ immovable = true then
    { h with large_sblocks := ⟨[entry]⟩ :: h.large_sblocks }
  else
    match h.small_sblocks.getLast? with
    | none => { h with small_sblocks := [⟨[entry]⟩] }
    | some b =>
        if SBLOCK_SIZE - GC_STRING_EXTRA
            < sblock_data_offset + usedBytes b.entries + needed then
          { h with small_sblocks := h.small_sblocks ++ [⟨[entry]⟩] }
        else
          { h with small_sblocks :=
              h.small_sblocks.dropLast ++ [⟨b.entries ++ [entry]⟩] }

/-- The copying loop of compact_small_strings (lines 1570-1634): FROM
iterates over every sdata of every shared sblock in chain order; live
sdata are copied to the TO cursor, moving to the next target block
when the current one is full (tb_end check); free sdata are skipped
(FROM advances past them).  DONE holds the finished target blocks, CUR
the entries already copied into the current target block.  -/
def compactGo : List SData → List SBlock → List SData → List SBlock
  | [], done, cur => done ++ [⟨cur⟩]
  | e :: rest, done, cur =>
      match e.owner with
      | none => compactGo rest done cur
      | some _ =>
          if SBLOCK_SIZE < sblock_data_offset + usedBytes cur + entrySize e then
            compactGo rest (done ++ [⟨cur⟩]) [e]
          else
            compactGo rest done (cur ++ [e])

/-- alloc.c compact_small_strings (lines 1556-1650): compact the
shared chain, freeing the sblocks left entirely behind the compaction
frontier; dedicated (large/pinned) sblocks are not traversed at all.
With no shared sblock (tb = NULL) nothing happens.  -/
def compact_small_strings (h : StringHeap) : StringHeap :=
  match h.small_sblocks with
  | [] => h
  | _ => { h with small_sblocks := compactGo (smallEntries h) [] [] }

/-- Mark string SID's sdata in the shared chain free (its STRING
back-pointer nulled), as pin_string does to the old sdata after
copying; each live string owns a single sdata, so mapping over the
chain frees exactly that one.  -/
def markFreeSmall (h : StringHeap) (sid : Nat) : StringHeap :=
  { h with small_sblocks :=
      h.small_sblocks.map (fun b =>
        ⟨b.entries.map (fun e =>
          if e.owner = some sid then { e with owner := none } else e)⟩) }

/-- alloc.c pin_string (lines 1951-1971).  SIZE is STRING_BYTES of the
string and alreadyPinned its size_byte == -3 state (header state kept
outside this heap model; the PURE_P / pdumper cases are likewise
outside the managed heap).  A small, not-yet-pinned string gets its
payload copied into a dedicated immovable sblock by
allocate_string_data, and the old shared-chain sdata is freed.  -/
def pin_string (h : StringHeap) (sid : Nat) (size : Nat)
    (alreadyPinned : Bool) : StringHeap :=
  if LARGE_STRING_BYTES < size ∨ alreadyPinned = true then h
  else
    match (smallEntries h).find? (fun e => e.owner = some sid) with
    | none => h
    | some e => markFreeSmall (allocate_string_data h sid e.bytes true) sid

/-! Concrete example data for witness and counterexample theorems. -/

/-- A small shared chain: one sblock holding a free sdata followed by
two live ones, and a second (current) sblock with one live sdata.  -/
def heap_ex : StringHeap :=
  { large_sblocks := [⟨[⟨some 30, 4, [9, 9, 9, 9]⟩]⟩]
    small_sblocks :=
      [ ⟨[⟨none, 5, [0, 0, 0, 0, 0]⟩,
          ⟨some 5, 3, [1, 2, 3]⟩,
          ⟨some 6, 2, [4, 5]⟩]⟩,
        ⟨[⟨some 7, 1, [8]⟩]⟩ ] }

/-- A 2000-byte payload (scenario C: a 2000-character unibyte string,
above the LARGE_STRING_BYTES = 1024 threshold).  -/
def bytes2000 : List Nat := List.replicate 2000 0

end Str

/-! ### Conservative heap index (alloc.c lines 102-151 and 3317-3684).

The red-black interval tree mapping addresses to registered
allocations.  The C nodes carry parent pointers and use the mem_z
sentinel for empty children; we model the tree algebraically and the
bottom-up fixup loops with an explicit path (zipper) of the frames the
parent pointers would traverse, which preserves the algorithm
(recolorings and rotations) exactly.  Addresses are naturals, with 0
playing NULL's role for min_heap_address / max_heap_address.  -/

namespace Mem

/-- enum mem_type (alloc.c lines 102-113). -/
inductive MemType where
  | non_lisp | cons | string | symbol | float | vectorlike | vblock
  deriving Repr, DecidableEq

/-- The payload of a mem_node: the [start, stop) range and its type. -/
structure Range where
  start : Nat
  stop : Nat
  ty : MemType
  deriving Repr, DecidableEq

inductive Color where
  | red
  | black
  deriving Repr, DecidableEq

/-- The tree: nil stands for the MEM_NIL sentinel. -/
inductive MTree where
  | nil
  | node (c : Color) (l : MTree) (rng : Range) (r : MTree)
  deriving Repr, DecidableEq

/-- mem_z's color is black (mem_init, line 3322). -/
def colorOf : MTree → Color
  | .nil => .black
  | .node c _ _ _ => c

/-- Set the root's color to black (x->color = MEM_BLACK; coloring the
mem_z sentinel is a no-op for the tree's meaning).  -/
def blackenRoot : MTree → MTree
  | .nil => .nil
  | .node _ l rng r => .node .black l rng r

/-- Set the root's color to red (w->color = MEM_RED). -/
def redden : MTree → MTree
  | .nil => .nil
  | .node _ l rng r => .node .red l rng r

inductive Dir where
  | left
  | right
  deriving Repr, DecidableEq

/-- One step of the parent-pointer chain, seen from the child: the
side the child is on, and the parent's color, range and other child. -/
structure Frame where
  dir : Dir
  c : Color
  rng : Range
  other : MTree
  deriving Repr, DecidableEq

/-- The chain of parents from a node up to the root, innermost
first.  -/
abbrev Path := List Frame

/-- Put a subtree back under its immediate parent frame. -/
def reassemble1 (t : MTree) (f : Frame) : MTree :=
  match f.dir with
  | .left => .node f.c t f.rng f.other
  | .right => .node f.c f.other f.rng t

/-- Rebuild the whole tree from a subtree and its parent chain. -/
def reassemble (t : MTree) : Path → MTree
  | [] => t
  | f :: rest => reassemble (reassemble1 t f) rest

/-- In-order list of the registered ranges. -/
def ranges : MTree → List Range
  | .nil => []
  | .node _ l rng r => ranges l ++ rng :: ranges r

/-- The search loop of mem_find (lines 3341-3344): while the address
is outside the node's range, descend left or right by comparing with
the node's start; the sentinel (made to match any address) plays the
role of the none result.  -/
def mem_find_tree (a : Nat) : MTree → Option Range
  | .nil => none
  | .node _ l rng r =>
      if a < rng.start then mem_find_tree a l
      else if rng.stop ≤ a then mem_find_tree a r
      else some rng

/-- The descent loop of mem_insert (lines 3364-3371): find the leaf
position for START, collecting the parent chain (c = start < c->start
? c->left : c->right).  -/
def insertPath (start : Nat) : MTree → Path → Path
  | .nil, path => path
  | .node c l rng r, path =>
      if start < rng.start then insertPath start l (⟨.left, c, rng, r⟩ :: path)
      else insertPath start r (⟨.right, c, rng, l⟩ :: path)

/-- Cases 2-3 of mem_insert_fixup and their mirrors (lines 3432-3445
and 3459-3470): with a black uncle, one or two rotations about the
parent and grandparent put the middle key on top, painted black, with
the other two nodes red below it.  PF is the parent frame, GF the
grandparent frame (GF.other the uncle); X, the current red subtree, is
never nil (it is the freshly inserted node or a case-1 rebuild).  -/
def mem_insert_rotate (pf gf : Frame) : MTree → MTree
  | x =>
      match gf.dir, pf.dir, x with
      | .left, .left, x =>
          .node .black x pf.rng (.node .red pf.other gf.rng gf.other)
      | .left, .right, .node _ xl xrng xr =>
          .node .black (.node pf.c pf.other pf.rng xl) xrng
            (.node .red xr gf.rng gf.other)
      | .right, .right, x =>
          .node .black (.node .red gf.other gf.rng pf.other) pf.rng x
      | .right, .left, .node _ xl xrng xr =>
          .node .black (.node .red gf.other gf.rng xl) xrng
            (.node pf.c xr pf.rng pf.other)
      | _, _, .nil => .nil

/-- alloc.c mem_insert_fixup (lines 3408-3477), the bottom-up CLRS
recoloring/rotation loop.  X is the current red-rooted subtree, the
path its parent chain.  While X is not the root and its parent is red:
with a red uncle, recolor parent and uncle black and grandparent red
and continue from the grandparent (case 1); with a black uncle, one or
two rotations about parent/grandparent fix the violation via
mem_insert_rotate and the loop terminates.  Finally the root is
painted black.  A red parent that is the root cannot occur (the root
is black throughout the loop); that branch returns the reassembled
tree to stay total.  -/
def mem_insert_fixup : MTree → Path → MTree
  | x, [] => blackenRoot x
  | x, pf :: rest =>
      if pf.c = .red then
        match rest with
        | [] => blackenRoot (reassemble1 x pf)
        | gf :: rest2 =>
            if colorOf gf.other = .red then
              mem_insert_fixup
                (reassemble1 (reassemble1 x ⟨pf.dir, .black, pf.rng, pf.other⟩)
                  ⟨gf.dir, .red, gf.rng, blackenRoot gf.other⟩)
                rest2
            else
              blackenRoot (reassemble (mem_insert_rotate pf gf x) rest2)
      else blackenRoot (reassemble x (pf :: rest))

/-- alloc.c mem_insert (lines 3351-3403), tree part: a fresh red node
for the range at the leaf position found by the descent, then
mem_insert_fixup.  -/
def mem_insert_tree (t : MTree) (rng : Range) : MTree :=
  mem_insert_fixup (.node .red .nil rng .nil) (insertPath rng.start t [])

/-- Cases 2-4 of one mem_delete_fixup iteration (lines 3622-3641 and
mirrors 3655-3675), entered with the sibling PF.other not red.
Returns inl of the finished whole tree (cases 3-4: rotations, after
which the loop exits with x = root) or inr of the subtree to continue
from at the parent's position (case 2: recolor sibling red, move up).
A nil sibling cannot occur (x has positive black deficit); that branch
reassembles to stay total.  -/
def mem_delete_fixup_cases (x : MTree) (pf : Frame) (rest : Path) :
    MTree ⊕ MTree :=
  match pf.other with
  | .nil => .inl (reassemble (blackenRoot x) (pf :: rest))
  | .node _ wl wrng wr =>
      match pf.dir with
      | .left =>
          if colorOf wl = .black ∧ colorOf wr = .black then
            .inr (.node pf.c x pf.rng (.node .red wl wrng wr))
          else
            let w2 : MTree × Range × MTree :=
              if colorOf wr = .black then
                match wl with
                | .node _ wll wlrng wlr =>
                    (wll, wlrng, .node .red wlr wrng wr)
                | .nil => (wl, wrng, wr)
              else (wl, wrng, wr)
            .inl (blackenRoot (reassemble
              (.node pf.c (.node .black x pf.rng w2.1) w2.2.1
                (blackenRoot w2.2.2)) rest))
      | .right =>
          if colorOf wr = .black ∧ colorOf wl = .black then
            .inr (.node pf.c (.node .red wl wrng wr) pf.rng x)
          else
            let w2 : MTree × Range × MTree :=
              if colorOf wl = .black then
                match wr with
                | .node _ wrl wrrng wrr =>
                    (.node .red wl wrng wrl, wrrng, wrr)
                | .nil => (wl, wrng, wr)
              else (wl, wrng, wr)
            .inl (blackenRoot (reassemble
              (.node pf.c (blackenRoot w2.1) w2.2.1
                (.node .black w2.2.2 pf.rng x)) rest))

/-- alloc.c mem_delete_fixup (lines 3605-3680): while X is black and
not the root, fix the black-height deficit: a red sibling is first
rotated into a black one (case 1, staying in the same loop iteration,
where the parent has become red so a subsequent case 2 exits the loop
immediately); then cases 2-4 as above.  On exit the current node is
painted black.  -/
def mem_delete_fixup : MTree → Path → MTree
  | x, [] => blackenRoot x
  | x, pf :: rest =>
      if colorOf x = .red then reassemble (blackenRoot x) (pf :: rest)
      else
        if colorOf pf.other = .red then
          match pf.other with
          | .node _ wl wrng wr =>
              match pf.dir with
              | .left =>
                  let pfNew : Frame := ⟨.left, .red, pf.rng, wl⟩
                  let wf : Frame := ⟨.left, .black, wrng, wr⟩
                  match mem_delete_fixup_cases x pfNew (wf :: rest) with
                  | .inl t => t
                  | .inr x2 => reassemble (blackenRoot x2) (wf :: rest)
              | .right =>
                  let pfNew : Frame := ⟨.right, .red, pf.rng, wr⟩
                  let wf : Frame := ⟨.right, .black, wrng, wl⟩
                  match mem_delete_fixup_cases x pfNew (wf :: rest) with
                  | .inl t => t
                  | .inr x2 => reassemble (blackenRoot x2) (wf :: rest)
          | .nil => reassemble (blackenRoot x) (pf :: rest)
        else
          match mem_delete_fixup_cases x pf rest with
          | .inl t => t
          | .inr x2 => mem_delete_fixup x2 rest

/-- Locate the node with the given start address, collecting its
parent chain; none models mem_delete's immediate return on a node not
in the tree (lines 3557-3558).  -/
def delPath (key : Nat) : MTree → Path →
    Option (Color × MTree × Range × MTree × Path)
  | .nil, _ => none
  | .node c l rng r, path =>
      if key < rng.start then delPath key l (⟨.left, c, rng, r⟩ :: path)
      else if rng.start < key then delPath key r (⟨.right, c, rng, l⟩ :: path)
      else some (c, l, rng, r, path)

/-- Descend to the leftmost node (y = z->right; while (y->left !=
MEM_NIL) y = y->left; lines 3564-3566), collecting the chain.  -/
def minSpine : MTree → Path → Option (Color × Range × MTree × Path)
  | .nil, _ => none
  | .node c .nil rng r, path => some (c, rng, r, path)
  | .node c (.node cl ll lrng lr) rng r, path =>
      minSpine (.node cl ll lrng lr) (⟨.left, c, rng, r⟩ :: path)

/-- alloc.c mem_delete (lines 3552-3600): splice out the node (or its
in-order successor when it has two children, the successor's data
moving into the node, which keeps its color), then rebalance with
mem_delete_fixup exactly when the spliced node was black.  -/
def mem_delete_tree (t : MTree) (key : Nat) : MTree :=
  match delPath key t [] with
  | none => t
  | some (zc, zl, _zrng, zr, path) =>
      match zl, zr with
      | .nil, _ =>
          if zc = .black then mem_delete_fixup zr path else reassemble zr path
      | .node cl ll lrng lr, .nil =>
          if zc = .black then mem_delete_fixup (.node cl ll lrng lr) path
          else reassemble (.node cl ll lrng lr) path
      | .node _ _ _ _, .node cr rl rrng rr =>
          match minSpine (.node cr rl rrng rr) [] with
          | none => t
          | some (yc, yrng, yr, path2) =>
              let fullpath := path2 ++ ⟨.right, zc, yrng, zl⟩ :: path
              if yc = .black then mem_delete_fixup yr fullpath
              else reassemble yr fullpath

/-- The global index state: mem_root plus the cheap-rejection bounds
(0 = NULL, their initial value).  -/
structure MemGlobal where
  root : MTree
  min_heap_address : Nat
  max_heap_address : Nat
  deriving Repr, DecidableEq

/-- alloc.c mem_find (lines 3329-3345): reject addresses outside
[min_heap_address, max_heap_address] without walking the tree, then
run the descent loop.  The only writes the C function performs are to
the mem_z sentinel's scratch start/end fields (the device that ends
the loop, rendered here by the none result); the global state is
returned unchanged.  -/
def mem_find (st : MemGlobal) (a : Nat) : MemGlobal × Option Range :=
  if a < st.min_heap_address ∨ st.max_heap_address < a then (st, none)
  else (st, mem_find_tree a st.root)

/-- alloc.c mem_insert (lines 3351-3403): widen min_heap_address /
max_heap_address to cover the new range (lines 3356-3359), then insert
into the tree.  -/
def mem_insert (st : MemGlobal) (rng : Range) : MemGlobal :=
  { root := mem_insert_tree st.root rng
    min_heap_address :=
      if st.min_heap_address = 0 ∨ rng.start < st.min_heap_address then rng.start
      else st.min_heap_address
    max_heap_address :=
      if st.max_heap_address = 0 ∨ st.max_heap_address < rng.stop then rng.stop
      else st.max_heap_address }

/-- alloc.c mem_delete, at the state level: the bounds are not
shrunk.  -/
def mem_delete (st : MemGlobal) (key : Nat) : MemGlobal :=
  { st with root := mem_delete_tree st.root key }

/-- The states reachable by the allocator's use of the index: starting
empty (mem_init), inserting ranges of freshly obtained, hence nonempty
and non-overlapping, memory at nonzero addresses, and deleting.  -/
inductive Reach : MemGlobal → Prop
  | init : Reach ⟨.nil, 0, 0⟩
  | insert {st rng} : Reach st → 0 < rng.start → rng.start < rng.stop →
      (∀ q ∈ ranges st.root, q.stop ≤ rng.start ∨ rng.stop ≤ q.start) →
      Reach (mem_insert st rng)
  | delete {st key} : Reach st → Reach (mem_delete st key)

/-- Two address ranges do not overlap. -/
def disjointRanges (a b : Range) : Prop := a.stop ≤ b.start ∨ b.stop ≤ a.start

/-- Red-black property 3: a red node has no red child. -/
def noRedRed : MTree → Prop
  | .nil => True
  | .node c l _ r =>
      (c = .red → colorOf l = .black ∧ colorOf r = .black)
      ∧ noRedRed l ∧ noRedRed r

/-- The black height when every root-to-leaf path has the same number
of black nodes, none otherwise (red-black property 4).  -/
def blackHeightOf : MTree → Option Nat
  | .nil => some 0
  | .node c l _ r =>
      match blackHeightOf l, blackHeightOf r with
      | some m, some n =>
          if m = n then some (m + (if c = .black then 1 else 0)) else none
      | _, _ => none

/-- The structural separation invariant: every stored range is
nonempty, ranges left of a node end at or before its start, ranges
right of it begin at or after its stop.  -/
def SepT : MTree → Prop
  | .nil => True
  | .node _ l rng r =>
      rng.start < rng.stop
      ∧ (∀ q ∈ ranges l, q.stop ≤ rng.start)
      ∧ (∀ q ∈ ranges r, rng.stop ≤ q.start)
      ∧ SepT l ∧ SepT r

/-- Balance certificate in the style of the red-black literature: the
tree is balanced with the given root color and black height.  -/
inductive Balanced : MTree → Color → Nat → Prop
  | nil : Balanced .nil .black 0
  | red {l r : MTree} {rng : Range} {n : Nat} :
      Balanced l .black n → Balanced r .black n →
      Balanced (.node .red l rng r) .red n
  | black {l r : MTree} {rng : Range} {n : Nat} {cl cr : Color} :
      Balanced l cl n → Balanced r cr n →
      Balanced (.node .black l rng r) .black (n + 1)

/-- Context certificate: the path accepts at its hole a subtree with
the given color and black height, and reassembles into a balanced tree
of color c0 and height n0.  -/
inductive PathBal (c0 : Color) (n0 : Nat) : Path → Color → Nat → Prop
  | root : PathBal c0 n0 [] c0 n0
  | redl {p : Path} {x : MTree} {rng : Range} {n : Nat} :
      Balanced x .black n → PathBal c0 n0 p .red n →
      PathBal c0 n0 (⟨.left, .red, rng, x⟩ :: p) .black n
  | redr {p : Path} {x : MTree} {rng : Range} {n : Nat} :
      Balanced x .black n → PathBal c0 n0 p .red n →
      PathBal c0 n0 (⟨.right, .red, rng, x⟩ :: p) .black n
  | blackl {p : Path} {x : MTree} {rng : Range} {n : Nat} {cx : Color}
      (c : Color) :
      Balanced x cx n → PathBal c0 n0 p .black (n + 1) →
      PathBal c0 n0 (⟨.left, .black, rng, x⟩ :: p) c n
  | blackr {p : Path} {x : MTree} {rng : Range} {n : Nat} {cx : Color}
      (c : Color) :
      Balanced x cx n → PathBal c0 n0 p .black (n + 1) →
      PathBal c0 n0 (⟨.right, .black, rng, x⟩ :: p) c n

/-- The ranges contributed by a path around its hole: those in-order
before the hole and those after.  -/
def pathOuter : Path → List Range × List Range
  | [] => ([], [])
  | f :: rest =>
      let (a, b) := pathOuter rest
      match f.dir with
      | .left => (a, f.rng :: ranges f.other ++ b)
      | .right => (a ++ ranges f.other ++ [f.rng], b)

/-- Separation at the list level: all ranges nonempty and in-order
pairwise separated.  -/
def SepList (rs : List Range) : Prop :=
  (∀ r ∈ rs, r.start < r.stop) ∧ rs.Pairwise (fun a b => a.stop ≤ b.start)

/-- Where the insertion descent splits the in-order range list: the
ranges that end up in-order before the new leaf and those after.  -/
def splitByStart (start : Nat) : MTree → List Range × List Range
  | .nil => ([], [])
  | .node _ l rng r =>
      if start < rng.start then
        let (a, b) := splitByStart start l
        (a, b ++ rng :: ranges r)
      else
        let (a, b) := splitByStart start r
        (ranges l ++ rng :: a, b)

/-- The inductive invariant of the index state: the tree is separated,
balanced, and the cheap-rejection bounds cover all registered ranges
(whose addresses are nonzero).  -/
def MemInv (st : MemGlobal) : Prop :=
  SepT st.root
  ∧ (∃ n, Balanced st.root .black n)
  ∧ (∀ q ∈ ranges st.root,
       st.min_heap_address ≤ q.start ∧ q.stop ≤ st.max_heap_address ∧ 0 < q.start)
  ∧ (st.min_heap_address = 0 ∨ st.max_heap_address = 0 → ranges st.root = [])

/-- Concrete index state for witness theorems: two registered blocks. -/
def mem_ex : MemGlobal :=
  mem_insert (mem_insert ⟨.nil, 0, 0⟩ ⟨100, 200, .cons⟩) ⟨300, 420, .vblock⟩

end Mem


/-! Vector-block allocator: segregated per-size free lists of
allocate_vectorlike (alloc.c lines 2611-2681), with the enum constants
of lines 650-656.  VBLOCK_ALIGN is 1 << PSEUDOVECTOR_SIZE_BITS; the
value 12 of PSEUDOVECTOR_SIZE_BITS and header_size = word_size come
from lisp.h, which is not part of src/.  Vectors are identified by
their start address; each free list holds the addresses of its chain
(set_next_vector / next_vector walk).  -/

namespace Vec

/-- lisp.h: sizeof (union vectorlike_header). -/
def header_size : Nat := 8

/-- alloc.c line 650: 1 << PSEUDOVECTOR_SIZE_BITS (lisp.h: 12). -/
def VBLOCK_ALIGN : Nat := 2 ^ 12

/-- alloc.c line 651: block bytes minus the next pointer. -/
def VBLOCK_NBYTES : Nat := VBLOCK_ALIGN - 8

/-- alloc.c line 652: header plus one Lisp_Object slot. -/
def LISP_VECTOR_MIN : Nat := header_size + 8

/-- alloc.c line 653: (VBLOCK_NBYTES >> 1) - word_size. -/
def LARGE_VECTOR_THRESH : Nat := VBLOCK_NBYTES / 2 - 8

/-- alloc.c line 656: one free list per vector word-length. -/
def VBLOCK_NFREE_LISTS : Nat := 1 + (VBLOCK_NBYTES - LISP_VECTOR_MIN) / 8

/-- alloc.c lines 2257-2262: size class of a vector of NBYTES bytes. -/
def VINDEX (nbytes : Nat) : Nat := (nbytes - LISP_VECTOR_MIN) / 8

/-- The vector_free_lists array plus the address source for fresh
vector blocks (allocate_vector_block, lines 2325-2339).  -/
structure VecHeap where
  free_lists : List (List Nat)
  next_block_addr : Nat
  deriving Repr, DecidableEq

/-- Read free list I (vector_free_lists[i]). -/
def flGet (h : VecHeap) (i : Nat) : List Nat := h.free_lists.getD i []

/-- alloc.c add_vector_free_lists (lines 2313-2324): push the free
vector V of NBYTES bytes onto the list of its own size class
VINDEX(NBYTES).  -/
def add_vector_free_lists (h : VecHeap) (v : Nat) (nbytes : Nat) : VecHeap :=
  { h with free_lists :=
      h.free_lists.set (VINDEX nbytes) (v :: flGet h (VINDEX nbytes)) }

/-- The scan loop of allocate_vectorlike (lines 2637-2654): from the
exact size class upward, stop at the first class that leaves no
residual or a residual of at least LISP_VECTOR_MIN and whose list is
nonempty.  The fuel counts the remaining classes, VBLOCK_NFREE_LISTS -
index at the call site.  -/
def scan_free_lists (h : VecHeap) (nbytes : Nat) : Nat → Nat → Option Nat
  | _, 0 => none
  | index, fuel + 1 =>
      if (index * 8 + LISP_VECTOR_MIN - nbytes = 0
          ∨ LISP_VECTOR_MIN ≤ index * 8 + LISP_VECTOR_MIN - nbytes)
          ∧ flGet h index ≠ [] then
        some index
      else scan_free_lists h nbytes (index + 1) fuel

/-- allocate_vectorlike, small-request path (lines 2630-2672): scan
the free lists; on a hit pop the head and, if a residual remains,
requeue it at the residual's own class; otherwise carve the vector
from a fresh block, requeuing the block's remainder likewise.  -/
def allocate_vectorlike_small (h : VecHeap) (nbytes : Nat) : Nat × VecHeap :=
  match scan_free_lists h nbytes (VINDEX nbytes)
      (VBLOCK_NFREE_LISTS - VINDEX nbytes) with
  | some idx =>
      let p := (flGet h idx).headD 0
      let h1 : VecHeap :=
        { h with free_lists := h.free_lists.set idx (flGet h idx).tail }
      let restbytes := idx * 8 + LISP_VECTOR_MIN - nbytes
      if restbytes ≠ 0 then (p, add_vector_free_lists h1 (p + nbytes) restbytes)
      else (p, h1)
  | none =>
      let p := h.next_block_addr
      let h1 : VecHeap :=
        { h with next_block_addr := h.next_block_addr + VBLOCK_ALIGN }
      let restbytes := VBLOCK_NBYTES - nbytes
      if restbytes ≠ 0 then (p, add_vector_free_lists h1 (p + nbytes) restbytes)
      else (p, h1)

/-- Concrete heap for witness theorems: class 6 (64-byte vectors)
holds one free vector at address 777, all other classes empty.  -/
def vec_ex : VecHeap :=
  ⟨(List.replicate 510 ([] : List Nat)).set 6 [777], 4096⟩

end Vec

/-! Mark phase on cons cells: the explicit mark stack of
process_mark_stack with the Lisp_Cons case (alloc.c lines 5802-5823)
— already-marked check, cdr pushed unless nil, car continued in the
same iteration (the goto mark_obj tail loop) — and the per-cell
accounting of sweep_conses (lines 5928-6002).  A heap of N cons cells
is indexed by Fin N.  -/

namespace Mark

/-- The values the cons-marking code inspects: nil, a non-heap
immediate, or a reference to a cons cell.  -/
inductive LVal (n : Nat) where
  | nil
  | imm (k : Int)
  | ref (i : Fin n)
  deriving Repr, DecidableEq

/-- A heap of N cons cells. -/
structure ConsHeap (n : Nat) where
  car : Fin n → LVal n
  cdr : Fin n → LVal n

/-- process_mark_stack on cons cells (lines 5560-5564 and 5802-5823):
pop; ignore non-heap values; skip an already-marked cell
(cons_marked_p); otherwise mark it, push its cdr unless nil, and
continue with its car in the same iteration.  Termination: each step
either marks a previously unmarked cell or shrinks the stack.  -/
def processMarkStack {n : Nat} (h : ConsHeap n) :
    Finset (Fin n) → List (LVal n) → Finset (Fin n)
  | marked, [] => marked
  | marked, .nil :: stack => processMarkStack h marked stack
  | marked, .imm _ :: stack => processMarkStack h marked stack
  | marked, .ref i :: stack =>
      if hmem : i ∈ marked then processMarkStack h marked stack
      else
        processMarkStack h (insert i marked)
          (h.car i :: (if h.cdr i ≠ .nil then h.cdr i :: stack else stack))
termination_by marked stack => (n - marked.card, stack.length)
decreasing_by
  · apply Prod.Lex.right
    simp only [List.length_cons]
    omega
  · apply Prod.Lex.right
    simp only [List.length_cons]
    omega
  · apply Prod.Lex.right
    simp only [List.length_cons]
    omega
  · apply Prod.Lex.left
    have h1 : (insert i marked).card = marked.card + 1 :=
      Finset.card_insert_of_not_mem hmem
    have h2 : (insert i marked).card ≤ n := by
      have h3 := Finset.card_le_univ (insert i marked)
      simpa using h3
    omega

/-- sweep_conses, per-cell accounting (lines 5964-5979): an unmarked
cell is chained onto the free list and counted free; a marked cell is
unmarked and counted used.  -/
def sweepCells {n : Nat} (marked : Finset (Fin n)) :
    List (Fin n) → Nat × Nat × List (Fin n)
  | [] => (0, 0, [])
  | i :: rest =>
      let r := sweepCells marked rest
      if i ∈ marked then (r.1 + 1, r.2.1, r.2.2)
      else (r.1, r.2.1 + 1, i :: r.2.2)

/-- Scenario B: N+1 cells in a cdr cycle, cell i's cdr pointing to
cell (i+1) mod (N+1), cars nil.  -/
def cycleHeap (N : Nat) : ConsHeap (N + 1) :=
  { car := fun _ => .nil
    cdr := fun i => .ref ⟨(i.val + 1) % (N + 1), Nat.mod_lt _ (Nat.succ_pos N)⟩ }

/-- The cells of index below k. -/
def markedUpTo (N k : Nat) : Finset (Fin (N + 1)) :=
  Finset.univ.filter (fun i => i.val < k)

end Mark


/-! ## Theorems -/

namespace Alloc

theorem tdiv_pos_matches_rat_div (a b : Int) (n : Nat) (hn : 1 ≤ n)
    (hb : 0 ≤ b) : a > Int.tdiv b (n : Int) ↔ (a : ℚ) > (b : ℚ) / (n : ℚ) := by
  have hn0 : (0 : Int) < (n : Int) := by exact_mod_cast hn
  have ht : Int.tdiv b (n : Int) = b / (n : Int) :=
    Int.tdiv_eq_ediv hb (le_of_lt hn0)
  rw [ht]
  have h1 : b / (n : Int) < a ↔ b < a * (n : Int) := Int.ediv_lt_iff_lt_mul hn0
  have h2 : (b : ℚ) / (n : ℚ) < (a : ℚ) ↔ (b : ℚ) < (a : ℚ) * (n : ℚ) := by
    rw [div_lt_iff₀ (by exact_mod_cast hn0)]
  constructor
  · intro h
    exact h2.mpr (by exact_mod_cast h1.mp h)
  · intro h
    exact h1.mpr (by exact_mod_cast h2.mp h)

/-- C1: with a float percentage P configured, the effective
automatic-collection threshold bytes_between_gc equals
max (T, trunc (P * live-bytes)); it is recomputed immediately by the
watchers of both tunables (the threshold watcher storing the requested
value clamped from below by GC_DEFAULT_THRESHOLD >> 3 as the new
configured T); the allocation-path trigger fires exactly when
bytes_since_gc exceeds that effective threshold, and
garbage-collect-maybe with factor N fires exactly when N >= 1 and
bytes_since_gc exceeds the effective threshold divided (C integer
division) by N.  -/
theorem gc_effective_threshold_and_trigger (st : GCState) (p : ℚ) :
    let stp := { st with gc_cons_percentage := some p }
    let liveQ : ℚ := (total_bytes_of_live_objects st.gcstat : ℚ)
    let eff : Int := max st.gc_cons_threshold (c_trunc (p * liveQ))
    (update_bytes_between_gc stp).bytes_between_gc = eff
    ∧ (∀ q : ℚ, (watch_gc_cons_percentage stp (some q)).bytes_between_gc
        = max st.gc_cons_threshold (c_trunc (q * liveQ)))
    ∧ (∀ t : Int, (watch_gc_cons_threshold stp (some t)).bytes_between_gc
        = max (max t (Int.tdiv GC_DEFAULT_THRESHOLD 8)) (c_trunc (p * liveQ)))
    ∧ (∀ doCollect,
        (maybe_garbage_collect doCollect (update_bytes_between_gc stp)).2 = true
          ↔ st.bytes_since_gc > eff)
    ∧ (∀ doCollect (fact : Nat),
        (Fgarbage_collect_maybe doCollect (update_bytes_between_gc stp) fact).2 = true
          ↔ 1 ≤ fact ∧ st.bytes_since_gc > Int.tdiv eff (fact : Int)) := by
  refine ⟨rfl, fun q => rfl, fun t => rfl, fun doCollect => ?_, fun doCollect fact => ?_⟩
  · simp only [maybe_garbage_collect, update_bytes_between_gc]
    split <;> simp_all
  · simp only [Fgarbage_collect_maybe, update_bytes_between_gc]
    split <;> simp_all

/-- C9 (amended): before initialization memory_full is unconditionally
fatal; once initialized it raises the recoverable signal whose payload
is exactly the preallocated Vmemory_signal_data (no payload is built
at signal time), and it leaves Vmemory_full set unless the failed
request exceeded 1 << 14 bytes and the 1 << 14 byte probe allocation
succeeds, in which case the flag is cleared again before signaling.  -/
theorem memory_full_fatal_or_preallocated_signal (st : MemFullState)
    (nbytes : Nat) (probe_ok : Bool) :
    memory_full { st with initialized := false } nbytes probe_ok
      = ({ st with initialized := false }, .fatal)
    ∧ (memory_full { st with initialized := true } nbytes probe_ok).2
      = .signaled st.memory_signal_data
    ∧ (memory_full { st with initialized := true } nbytes probe_ok).1
      = { st with initialized := true,
                  memory_full := if 2 ^ 14 < nbytes ∧ probe_ok then false else true } := by
  refine ⟨rfl, ?_, ?_⟩
  · cases probe_ok <;> by_cases h : (16384 : Nat) < nbytes <;> simp [memory_full, h]
  · cases probe_ok <;> by_cases h : (16384 : Nat) < nbytes <;> simp [memory_full, h]

/-- C9 counterexample to the claim as stated: with the runtime
initialized, a failed request of 2^14 + 1 bytes whose 16 KiB probe
malloc succeeds leaves the memory-full flag CLEARED (Qnil), not set,
even though the recoverable signal is still raised.  -/
theorem memory_full_flag_cleared_on_probe :
    (memory_full ⟨true, false, 7⟩ (2 ^ 14 + 1) true).1.memory_full = false
    ∧ (memory_full ⟨true, false, 7⟩ (2 ^ 14 + 1) true).2 = .signaled 7 := by
  constructor <;> rfl

/-- C10 (amended): when collection is inhibited or already in
progress, garbage_collect returns immediately, leaving the entire
collector state unchanged for any collection body; the Lisp-visible
entry point returns nil when collection is inhibited, but when only a
collection is in progress it still returns the per-kind statistics
list (built from the unchanged gcstat) while performing no collection
work.  -/
theorem garbage_collect_guard_frame (doCollect : GCState → GCState)
    (st : GCState) :
    garbage_collect doCollect { st with gc_in_progress := true }
      = { st with gc_in_progress := true }
    ∧ garbage_collect doCollect { st with gc_inhibited := true }
      = { st with gc_inhibited := true }
    ∧ Fgarbage_collect doCollect { st with gc_inhibited := true }
      = ({ st with gc_inhibited := true }, none)
    ∧ Fgarbage_collect doCollect { st with gc_inhibited := false, gc_in_progress := true }
      = ({ st with gc_inhibited := false, gc_in_progress := true },
         some (gc_stats_list st.gcstat)) := by
  refine ⟨by simp [garbage_collect], by simp [garbage_collect], ?_, ?_⟩
  · simp [Fgarbage_collect]
  · simp [Fgarbage_collect, garbage_collect]

/-- C10 counterexample to the claim as stated: with a collection in
progress and inhibition off, the Lisp-visible entry point does not
return nil — it returns the statistics list.  -/
theorem gc_in_progress_entry_returns_stats :
    (Fgarbage_collect (fun s => s) gcstate_in_progress).2
      = some (gc_stats_list gcstat_ex)
    ∧ (Fgarbage_collect (fun s => s) gcstate_in_progress).2 ≠ none := by
  constructor
  · rfl
  · intro h
    simp [Fgarbage_collect, gcstate_in_progress, garbage_collect] at h

end Alloc

namespace Str

/-- The compaction loop emits exactly the live sdata, in traversal
order, repartitioned into target blocks.  -/
theorem compactGo_flatten (l : List SData) (done : List SBlock) (cur : List SData) :
    ((compactGo l done cur).map SBlock.entries).flatten
      = (done.map SBlock.entries).flatten ++ cur
          ++ l.filter (fun e => e.owner.isSome) := by
  induction l generalizing done cur with
  | nil => simp [compactGo]
  | cons e rest ih =>
      cases ho : e.owner with
      | none => simp [compactGo, ho, ih]
      | some s =>
          by_cases hfit : SBLOCK_SIZE < sblock_data_offset + usedBytes cur + entrySize e
          · simp [compactGo, ho, hfit, ih]
          · simp [compactGo, ho, hfit, ih]

theorem find?_filter_of_imp {α : Type} (p q : α → Bool) (l : List α)
    (himp : ∀ a, p a = true → q a = true) :
    (l.filter q).find? p = l.find? p := by
  induction l with
  | nil => rfl
  | cons a l ih =>
      by_cases hq : q a = true
      · by_cases hp : p a = true <;> simp [List.filter_cons, hq, hp, ih]
      · have hp : ¬ p a = true := fun hcon => hq (himp a hcon)
        simp [List.filter_cons, hq, hp, ih]

/-- Compaction never touches the dedicated (large/pinned) sblocks. -/
theorem compact_small_strings_large_frame (h : StringHeap) :
    (compact_small_strings h).large_sblocks = h.large_sblocks := by
  unfold compact_small_strings
  cases h.small_sblocks <;> rfl

/-- C2: the payload bytes of every live small string are byte-for-byte
identical after a compacting sweep (only the backing position inside
the shared chain may change); the dedicated sblocks — in particular
those of pinned strings — are left exactly in place, and a small
string pinned by pin_string before the sweep has its payload in a
dedicated sblock, which compaction never relocates.  -/
theorem compact_small_strings_preserves_payloads (h : StringHeap) (sid : Nat)
    (p : List Nat) (hp : small_payload h sid = some p) :
    small_payload (compact_small_strings h) sid = some p
    ∧ (compact_small_strings h).large_sblocks = h.large_sblocks
    ∧ (∀ size : Nat, ¬ LARGE_STRING_BYTES < size →
        ∀ e, (smallEntries h).find? (fun x => x.owner = some sid) = some e →
          (pin_string h sid size false).large_sblocks
            = ⟨[⟨some sid, e.bytes.length, e.bytes⟩]⟩ :: h.large_sblocks
          ∧ (compact_small_strings (pin_string h sid size false)).large_sblocks
            = (pin_string h sid size false).large_sblocks) := by
  refine ⟨?_, compact_small_strings_large_frame h, ?_⟩
  · cases hs : h.small_sblocks with
    | nil =>
        have hch : compact_small_strings h = h := by
          simp [compact_small_strings, hs]
        rw [hch]; exact hp
    | cons b bs =>
        have hch : compact_small_strings h
            = { h with small_sblocks := compactGo (smallEntries h) [] [] } := by
          simp [compact_small_strings, hs]
        have hent : smallEntries (compact_small_strings h)
            = (smallEntries h).filter (fun e => e.owner.isSome) := by
          rw [hch]
          show ((compactGo (smallEntries h) [] []).map SBlock.entries).flatten = _
          rw [compactGo_flatten]; simp
        unfold small_payload at hp ⊢
        rw [hent, find?_filter_of_imp]
        · exact hp
        · intro a ha
          have : a.owner = some sid := of_decide_eq_true ha
          simp [this]
  · intro size hsize e hfind
    have hpin : pin_string h sid size false
        = markFreeSmall (allocate_string_data h sid e.bytes true) sid := by
      simp [pin_string, hsize, hfind]
    have halloc : (allocate_string_data h sid e.bytes true).large_sblocks
        = ⟨[⟨some sid, e.bytes.length, e.bytes⟩]⟩ :: h.large_sblocks := by
      simp [allocate_string_data]
    constructor
    · rw [hpin]
      show (allocate_string_data h sid e.bytes true).large_sblocks = _
      exact halloc
    · exact compact_small_strings_large_frame _

/-- C2 witness: a concrete shared chain with a leading free sdata; the
live string 5 keeps payload [1, 2, 3] across compaction and the
dedicated sblocks are untouched.  -/
theorem compact_small_strings_preserves_payloads_witness :
    small_payload heap_ex 5 = some [1, 2, 3]
    ∧ (small_payload (compact_small_strings heap_ex) 5 = some [1, 2, 3]
       ∧ (compact_small_strings heap_ex).large_sblocks = heap_ex.large_sblocks) := by
  have h := compact_small_strings_preserves_payloads heap_ex 5 [1, 2, 3] (by decide)
  exact ⟨by decide, h.1, h.2.1⟩

/-- C6: a payload allocation larger than LARGE_STRING_BYTES, or
requested immovable, goes into a fresh dedicated sblock pushed onto
large_sblocks with the shared chain untouched, and compaction of the
shared chain leaves that dedicated sblock exactly in place; any other
request leaves the dedicated list untouched and is packed at the
current shared sblock's next_free cursor when it fits, while a fresh
shared sblock holding just the new payload is appended (becoming
current) when no shared sblock exists or the current one cannot fit
the request.  -/
theorem allocate_string_data_placement (h : StringHeap) (sid : Nat)
    (bytes : List Nat) (immovable : Bool) :
    (LARGE_STRING_BYTES < bytes.length ∨ immovable = true →
       (allocate_string_data h sid bytes immovable).large_sblocks
         = ⟨[⟨some sid, bytes.length, bytes⟩]⟩ :: h.large_sblocks
       ∧ (allocate_string_data h sid bytes immovable).small_sblocks
         = h.small_sblocks
       ∧ (compact_small_strings (allocate_string_data h sid bytes immovable)).large_sblocks
         = ⟨[⟨some sid, bytes.length, bytes⟩]⟩ :: h.large_sblocks)
    ∧ (¬ (LARGE_STRING_BYTES < bytes.length ∨ immovable = true) →
       (allocate_string_data h sid bytes immovable).large_sblocks
         = h.large_sblocks
       ∧ ((∃ b, h.small_sblocks.getLast? = some b
             ∧ sblock_data_offset + usedBytes b.entries + sdata_size bytes.length
                 ≤ SBLOCK_SIZE - GC_STRING_EXTRA
             ∧ (allocate_string_data h sid bytes immovable).small_sblocks
                 = h.small_sblocks.dropLast
                     ++ [⟨b.entries ++ [⟨some sid, bytes.length, bytes⟩]⟩])
          ∨ ((h.small_sblocks = []
              ∨ ∃ b, h.small_sblocks.getLast? = some b
                  ∧ SBLOCK_SIZE - GC_STRING_EXTRA
                      < sblock_data_offset + usedBytes b.entries + sdata_size bytes.length)
             ∧ (allocate_string_data h sid bytes immovable).small_sblocks
                 = h.small_sblocks ++ [⟨[⟨some sid, bytes.length, bytes⟩]⟩]))) := by
  constructor
  · intro hbig
    have ha : allocate_string_data h sid bytes immovable
        = { h with large_sblocks :=
              ⟨[⟨some sid, bytes.length, bytes⟩]⟩ :: h.large_sblocks } := by
      simp [allocate_string_data, hbig]
    refine ⟨by rw [ha], by rw [ha], ?_⟩
    rw [compact_small_strings_large_frame, ha]
  · intro hneg
    unfold allocate_string_data
    rw [if_neg hneg]
    cases hl : h.small_sblocks.getLast? with
    | none =>
        have hemp : h.small_sblocks = [] := List.getLast?_eq_none_iff.mp hl
        refine ⟨rfl, Or.inr ⟨Or.inl hemp, ?_⟩⟩
        simp [hemp]
    | some b =>
        by_cases hfit : SBLOCK_SIZE - GC_STRING_EXTRA
            < sblock_data_offset + usedBytes b.entries + sdata_size bytes.length
        · refine ⟨by simp [hfit], Or.inr ⟨Or.inr ⟨b, rfl, hfit⟩, by simp [hfit]⟩⟩
        · refine ⟨by simp [hfit],
            Or.inl ⟨b, rfl, Nat.le_of_not_lt hfit, by simp [hfit]⟩⟩

/-- C6 witness (scenario C): a 2000-byte payload exceeds
LARGE_STRING_BYTES, receives its own dedicated sblock, and compaction
of the small shared chain leaves it untouched.  -/
theorem allocate_string_data_placement_witness :
    (LARGE_STRING_BYTES < bytes2000.length ∨ false = true)
    ∧ ((allocate_string_data heap_ex 9 bytes2000 false).large_sblocks
        = ⟨[⟨some 9, bytes2000.length, bytes2000⟩]⟩ :: heap_ex.large_sblocks
      ∧ (allocate_string_data heap_ex 9 bytes2000 false).small_sblocks
        = heap_ex.small_sblocks
      ∧ (compact_small_strings (allocate_string_data heap_ex 9 bytes2000 false)).large_sblocks
        = ⟨[⟨some 9, bytes2000.length, bytes2000⟩]⟩ :: heap_ex.large_sblocks) :=
  ⟨Or.inl (by norm_num [bytes2000, LARGE_STRING_BYTES]),
   (allocate_string_data_placement heap_ex 9 bytes2000 false).1
     (Or.inl (by norm_num [bytes2000, LARGE_STRING_BYTES]))⟩

end Str

namespace Mem

theorem ranges_blackenRoot (t : MTree) : ranges (blackenRoot t) = ranges t := by
  cases t <;> rfl

theorem ranges_redden (t : MTree) : ranges (redden t) = ranges t := by
  cases t <;> rfl

theorem reassemble1_ne_nil (t : MTree) (f : Frame) : reassemble1 t f ≠ .nil := by
  cases f with
  | mk dir c rng other => cases dir <;> simp [reassemble1]

theorem ranges_reassemble (t : MTree) (p : Path) :
    ranges (reassemble t p) = (pathOuter p).1 ++ ranges t ++ (pathOuter p).2 := by
  induction p generalizing t with
  | nil => simp [reassemble, pathOuter]
  | cons f rest ih =>
      cases f with
      | mk dir c rng other =>
          cases dir <;> simp [reassemble, reassemble1, pathOuter, ih, ranges]

/-- Soundness and completeness of the mem_find search loop on a
separated tree: an address inside a registered range finds exactly
that range.  -/
theorem mem_find_tree_mem {t : MTree} (hsep : SepT t) {q : Range}
    (hq : q ∈ ranges t) {a : Nat} (h1 : q.start ≤ a) (h2 : a < q.stop) :
    mem_find_tree a t = some q := by
  induction t with
  | nil => simp [ranges] at hq
  | node c l rng r ihl ihr =>
      obtain ⟨hne, hl, hr, hsl, hsr⟩ := hsep
      rw [ranges] at hq
      simp only [List.mem_append, List.mem_cons] at hq
      by_cases hlt : a < rng.start
      · rcases hq with hq | hq | hq
        · simpa [mem_find_tree, hlt] using ihl hsl hq
        · subst hq; omega
        · have := hr q hq; omega
      · by_cases hge : rng.stop ≤ a
        · rcases hq with hq | hq | hq
          · have := hl q hq; omega
          · subst hq; omega
          · simpa [mem_find_tree, hlt, hge] using ihr hsr hq
        · rcases hq with hq | hq | hq
          · have := hl q hq; omega
          · subst hq; simp [mem_find_tree, hlt, hge]
          · have := hr q hq; omega

/-- An address outside every registered range is rejected. -/
theorem mem_find_tree_none {t : MTree} {a : Nat}
    (h : ∀ q ∈ ranges t, a < q.start ∨ q.stop ≤ a) :
    mem_find_tree a t = none := by
  induction t with
  | nil => rfl
  | node c l rng r ihl ihr =>
      have hrng := h rng (by rw [ranges]; simp)
      by_cases hlt : a < rng.start
      · simpa [mem_find_tree, hlt] using
          ihl fun q hq => h q (by rw [ranges]; simp [hq])
      · have hge : rng.stop ≤ a := by omega
        simpa [mem_find_tree, hlt, hge] using
          ihr fun q hq => h q (by rw [ranges]; simp [hq])

theorem sepT_iff_sepList : ∀ t : MTree, SepT t ↔ SepList (ranges t) := by
  intro t
  induction t with
  | nil => simp [SepT, SepList, ranges]
  | node c l rng r ihl ihr =>
      constructor
      · rintro ⟨hne, hl, hr, hsl, hsr⟩
        obtain ⟨hne1, hp1⟩ := ihl.mp hsl
        obtain ⟨hne2, hp2⟩ := ihr.mp hsr
        constructor
        · intro q hq
          rw [ranges] at hq
          simp only [List.mem_append, List.mem_cons] at hq
          rcases hq with hq | hq | hq
          · exact hne1 q hq
          · subst hq; exact hne
          · exact hne2 q hq
        · rw [ranges, List.pairwise_append]
          refine ⟨hp1, List.pairwise_cons.mpr ⟨fun b hb => hr b hb, hp2⟩, ?_⟩
          intro a ha b hb
          simp only [List.mem_cons] at hb
          rcases hb with hb | hb
          · subst hb; exact hl a ha
          · have h1 := hl a ha
            have h2 := hr b hb
            omega
      · rintro ⟨hne, hp⟩
        rw [ranges] at hne hp
        rw [List.pairwise_append] at hp
        obtain ⟨hp1, hp2, hcross⟩ := hp
        rw [List.pairwise_cons] at hp2
        refine ⟨hne rng (by simp), ?_, ?_, ?_, ?_⟩
        · intro q hq; exact hcross q hq rng (by simp)
        · intro q hq; exact hp2.1 q hq
        · exact ihl.mpr ⟨fun q hq => hne q (by simp [hq]), hp1⟩
        · exact ihr.mpr ⟨fun q hq => hne q (by simp [hq]), hp2.2⟩

theorem mem_insert_fixup_black {pf : Frame} (x : MTree) (rest : Path)
    (hb : ¬ pf.c = .red) :
    mem_insert_fixup x (pf :: rest) = blackenRoot (reassemble x (pf :: rest)) := by
  obtain ⟨pdir, pc, prng, pother⟩ := pf
  simp only at hb
  cases rest with
  | nil => simp [mem_insert_fixup, hb]
  | cons gf rest2 => simp [mem_insert_fixup, hb]

theorem mem_insert_fixup_one {pf : Frame} (x : MTree) (hr : pf.c = .red) :
    mem_insert_fixup x [pf] = blackenRoot (reassemble1 x pf) := by
  obtain ⟨pdir, pc, prng, pother⟩ := pf
  simp only at hr
  subst hr
  simp [mem_insert_fixup]

theorem mem_insert_fixup_case1 {pf gf : Frame} (x : MTree) (rest2 : Path)
    (hr : pf.c = .red) (hu : colorOf gf.other = .red) :
    mem_insert_fixup x (pf :: gf :: rest2)
      = mem_insert_fixup
          (reassemble1 (reassemble1 x ⟨pf.dir, .black, pf.rng, pf.other⟩)
            ⟨gf.dir, .red, gf.rng, blackenRoot gf.other⟩) rest2 := by
  obtain ⟨pdir, pc, prng, pother⟩ := pf
  simp only at hr
  subst hr
  simp [mem_insert_fixup, hu]

theorem mem_insert_fixup_case23 {pf gf : Frame} (x : MTree) (rest2 : Path)
    (hr : pf.c = .red) (hu : ¬ colorOf gf.other = .red) :
    mem_insert_fixup x (pf :: gf :: rest2)
      = blackenRoot (reassemble (mem_insert_rotate pf gf x) rest2) := by
  obtain ⟨pdir, pc, prng, pother⟩ := pf
  simp only at hr
  subst hr
  simp [mem_insert_fixup, hu]

/-- The insert fixup loop only recolors and rotates: the in-order
sequence of the reassembled tree is untouched.  The current subtree is
always a node (the freshly inserted node, or a case-1 rebuild).  -/
theorem ranges_mem_insert_fixup (x : MTree) (p : Path) (hx : x ≠ .nil) :
    ranges (mem_insert_fixup x p)
      = (pathOuter p).1 ++ ranges x ++ (pathOuter p).2 := by
  induction x, p using mem_insert_fixup.induct with
  | case1 x => simp [mem_insert_fixup, ranges_blackenRoot, pathOuter]
  | case2 x pf hred =>
      rw [mem_insert_fixup_one x hred]
      obtain ⟨pdir, pc, prng, pother⟩ := pf
      cases pdir <;> simp [reassemble1, ranges_blackenRoot, ranges, pathOuter]
  | case3 x pf hred gf rest2 huncle ih =>
      rw [mem_insert_fixup_case1 x rest2 hred huncle,
        ih (reassemble1_ne_nil _ _)]
      obtain ⟨pdir, pc, prng, pother⟩ := pf
      obtain ⟨gdir, gc, grng, gother⟩ := gf
      cases pdir <;> cases gdir <;>
        simp [reassemble1, pathOuter, ranges, ranges_blackenRoot]
  | case4 x pf hred gf rest2 huncle =>
      rw [mem_insert_fixup_case23 x rest2 hred huncle, ranges_blackenRoot,
        ranges_reassemble]
      obtain ⟨pdir, pc, prng, pother⟩ := pf
      obtain ⟨gdir, gc, grng, gother⟩ := gf
      cases x with
      | nil => exact absurd rfl hx
      | node xc xl xrng xr =>
          cases pdir <;> cases gdir <;>
            simp [mem_insert_rotate, ranges, pathOuter]
  | case5 x pf rest hnred =>
      rw [mem_insert_fixup_black x rest hnred, ranges_blackenRoot,
        ranges_reassemble]

theorem sepT_nonempty {t : MTree} (h : SepT t) :
    ∀ q ∈ ranges t, q.start < q.stop :=
  ((sepT_iff_sepList t).mp h).1

theorem pathOuter_insertPath (startA : Nat) :
    ∀ (t : MTree) (path : Path),
      pathOuter (insertPath startA t path)
        = ((pathOuter path).1 ++ (splitByStart startA t).1,
           (splitByStart startA t).2 ++ (pathOuter path).2) := by
  intro t
  induction t with
  | nil => intro path; simp [insertPath, splitByStart]
  | node c l rng r ihl ihr =>
      intro path
      by_cases h : startA < rng.start
      · simp [insertPath, splitByStart, h, ihl, pathOuter]
      · simp [insertPath, splitByStart, h, ihr, pathOuter]

theorem ranges_splitByStart (startA : Nat) :
    ∀ t : MTree,
      (splitByStart startA t).1 ++ (splitByStart startA t).2 = ranges t := by
  intro t
  induction t with
  | nil => rfl
  | node c l rng r ihl ihr =>
      by_cases h : startA < rng.start <;>
        simp [splitByStart, ranges, h, ← ihl, ← ihr]

theorem splitByStart_bounds :
    ∀ {t : MTree}, SepT t → ∀ {rng : Range}, rng.start < rng.stop →
      (∀ q ∈ ranges t, q.stop ≤ rng.start ∨ rng.stop ≤ q.start) →
      (∀ q ∈ (splitByStart rng.start t).1, q.stop ≤ rng.start)
      ∧ (∀ q ∈ (splitByStart rng.start t).2, rng.stop ≤ q.start) := by
  intro t
  induction t with
  | nil =>
      intro _ rng _ _
      exact ⟨by simp [splitByStart], by simp [splitByStart]⟩
  | node c l rng0 r ihl ihr =>
      rintro ⟨hne0, hl, hr, hsl, hsr⟩ rng hne hdisj
      by_cases h : rng.start < rng0.start
      · have hrec := ihl hsl hne
          (fun q hq => hdisj q (by rw [ranges]; simp [hq]))
        constructor
        · intro q hq
          simp only [splitByStart, h, if_pos] at hq
          exact hrec.1 q hq
        · intro q hq
          simp only [splitByStart, h, if_pos, List.mem_append,
            List.mem_cons] at hq
          rcases hq with hq | hq | hq
          · exact hrec.2 q hq
          · have h2 := hdisj rng0 (by rw [ranges]; simp)
            rw [hq]
            omega
          · have hq0 : rng0.stop ≤ q.start := hr q hq
            have hqne : q.start < q.stop := sepT_nonempty hsr q hq
            have := hdisj q (by rw [ranges]; simp [hq])
            omega
      · have hrec := ihr hsr hne
          (fun q hq => hdisj q (by rw [ranges]; simp [hq]))
        constructor
        · intro q hq
          simp only [splitByStart, h, if_neg, ite_false, List.mem_append,
            List.mem_cons] at hq
          rcases hq with hq | hq | hq
          · have := hl q hq; omega
          · have h2 := hdisj rng0 (by rw [ranges]; simp)
            rw [hq]
            omega
          · exact hrec.1 q hq
        · intro q hq
          simp only [splitByStart, h, if_neg, ite_false] at hq
          exact hrec.2 q hq

theorem sepList_insert_middle {S1 S2 : List Range} {rng : Range}
    (h : SepList (S1 ++ S2)) (h1 : ∀ q ∈ S1, q.stop ≤ rng.start)
    (h2 : ∀ q ∈ S2, rng.stop ≤ q.start) (hne : rng.start < rng.stop) :
    SepList (S1 ++ rng :: S2) := by
  obtain ⟨hn, hp⟩ := h
  rw [List.pairwise_append] at hp
  obtain ⟨hp1, hp2, hcross⟩ := hp
  constructor
  · intro q hq
    simp only [List.mem_append, List.mem_cons] at hq
    rcases hq with hq | hq | hq
    · exact hn q (by simp [hq])
    · subst hq; exact hne
    · exact hn q (by simp [hq])
  · rw [List.pairwise_append]
    refine ⟨hp1, List.pairwise_cons.mpr ⟨h2, hp2⟩, ?_⟩
    intro a ha b hb
    simp only [List.mem_cons] at hb
    rcases hb with hb | hb
    · subst hb; exact h1 a ha
    · exact hcross a ha b hb

/-- Inserting a range puts it, in order, at the split position. -/
theorem ranges_mem_insert_tree (t : MTree) (rng : Range) :
    ranges (mem_insert_tree t rng)
      = (splitByStart rng.start t).1 ++ rng :: (splitByStart rng.start t).2 := by
  unfold mem_insert_tree
  rw [ranges_mem_insert_fixup _ _ (by simp), pathOuter_insertPath]
  simp [pathOuter, ranges]

/-- mem_insert keeps the stored ranges separated (hence
non-overlapping) when the new range is nonempty and does not overlap
any stored one.  -/
theorem sepT_mem_insert_tree {t : MTree} {rng : Range} (hsep : SepT t)
    (hne : rng.start < rng.stop)
    (hdisj : ∀ q ∈ ranges t, q.stop ≤ rng.start ∨ rng.stop ≤ q.start) :
    SepT (mem_insert_tree t rng) := by
  rw [sepT_iff_sepList, ranges_mem_insert_tree]
  have hb := splitByStart_bounds hsep hne hdisj
  refine sepList_insert_middle ?_ hb.1 hb.2 hne
  rw [ranges_splitByStart]
  exact (sepT_iff_sepList t).mp hsep

theorem balanced_colorOf {t : MTree} {c : Color} {n : Nat}
    (h : Balanced t c n) : colorOf t = c := by
  cases h <;> rfl

theorem blackenRoot_eq_self {t : MTree} {n : Nat} (h : Balanced t .black n) :
    blackenRoot t = t := by
  cases h <;> rfl

theorem blackenRoot_balanced {t : MTree} {c : Color} {n : Nat}
    (h : Balanced t c n) : ∃ m, Balanced (blackenRoot t) .black m := by
  cases h with
  | nil => exact ⟨0, .nil⟩
  | red hl hr => exact ⟨_, .black hl hr⟩
  | black hl hr => exact ⟨_, .black hl hr⟩

/-- Filling a valid context's hole with a fitting balanced subtree
yields a balanced tree.  -/
theorem PathBal.fill {c0 : Color} {n0 : Nat} :
    ∀ {p : Path} {ch : Color} {n : Nat} {x : MTree},
      PathBal c0 n0 p ch n → Balanced x ch n →
      Balanced (reassemble x p) c0 n0 := by
  intro p ch n x hp
  induction hp generalizing x with
  | root => intro hx; exact hx
  | redl hy _ ih => intro hx; exact ih (.red hx hy)
  | redr hy _ ih => intro hx; exact ih (.red hy hx)
  | blackl c hy _ ih => intro hx; exact ih (.black hx hy)
  | blackr c hy _ ih => intro hx; exact ih (.black hy hx)

/-- With a black root color requirement, the hole's color constraint
can always be strengthened to black.  -/
theorem PathBal.toBlack {n0 : Nat} :
    ∀ {p : Path} {ch : Color} {m : Nat},
      PathBal .black n0 p ch m → PathBal .black n0 p .black m := by
  intro p ch m hp
  cases hp with
  | root => exact .root
  | redl hy hp => exact .redl hy hp
  | redr hy hp => exact .redr hy hp
  | blackl c hy hp => exact .blackl .black hy hp
  | blackr c hy hp => exact .blackr .black hy hp

/-- The insertion descent produces a valid context for the new leaf. -/
theorem insertPath_pathBal {n0 : Nat} :
    ∀ (t : MTree) {c : Color} {n : Nat} {path : Path} (startA : Nat),
      Balanced t c n → PathBal .black n0 path c n →
      PathBal .black n0 (insertPath startA t path) .black 0 := by
  intro t
  induction t with
  | nil =>
      intro c n path sa ht hp
      cases ht
      simpa [insertPath] using hp
  | node tc l rng r ihl ihr =>
      intro c n path sa ht hp
      cases ht with
      | red hl hr =>
          rw [insertPath]
          split
          · exact ihl sa hl (.redl hr hp)
          · exact ihr sa hr (.redr hl hp)
      | black hl hr =>
          rw [insertPath]
          split
          · exact ihl sa hl (.blackl _ hr hp)
          · exact ihr sa hr (.blackr _ hl hp)

/-- Inversion for a context with at least one frame: either the frame
is red with a black hole constraint and a black sibling, or black with
a free hole color.  -/
theorem PathBal.inv_cons {n0 : Nat} {f : Frame} {p : Path} {ch : Color}
    {m : Nat} (h : PathBal .black n0 (f :: p) ch m) :
    (f.c = .red ∧ ch = .black ∧ Balanced f.other .black m
      ∧ PathBal .black n0 p .red m)
    ∨ (f.c = .black
      ∧ ∃ cx, Balanced f.other cx m ∧ PathBal .black n0 p .black (m + 1)) := by
  cases h with
  | redl hy hp => exact Or.inl ⟨rfl, rfl, hy, hp⟩
  | redr hy hp => exact Or.inl ⟨rfl, rfl, hy, hp⟩
  | blackl c hy hp => exact Or.inr ⟨rfl, _, hy, hp⟩
  | blackr c hy hp => exact Or.inr ⟨rfl, _, hy, hp⟩

/-- A nonempty context starting with the root-color black cannot
expect a red hole at the root.  -/
theorem PathBal.nil_not_red {n0 : Nat} {m : Nat}
    (h : PathBal .black n0 ([] : Path) .red m) : False := by
  cases h

/-- The insert fixup loop restores all red-black invariants: from a
red-rooted balanced subtree in a valid context it produces a balanced,
black-rooted tree.  -/
theorem mem_insert_fixup_balanced {n0 : Nat} :
    ∀ (x : MTree) (p : Path) {n : Nat} {ch : Color},
      Balanced x .red n → PathBal .black n0 p ch n →
      ∃ n1, Balanced (mem_insert_fixup x p) .black n1 := by
  intro x p
  induction x, p using mem_insert_fixup.induct with
  | case1 x =>
      intro n ch hx hp
      rw [show mem_insert_fixup x [] = blackenRoot x from rfl]
      exact blackenRoot_balanced hx
  | case2 x pf hred =>
      intro n ch hx hp
      exfalso
      rcases hp.inv_cons with ⟨_, _, _, hp2⟩ | ⟨hc, _⟩
      · exact hp2.nil_not_red
      · rw [hred] at hc; exact Color.noConfusion hc
  | case3 x pf hred gf rest2 huncle ih =>
      intro n ch hx hp
      rw [mem_insert_fixup_case1 x rest2 hred huncle]
      obtain ⟨pdir, pc, prng, pother⟩ := pf
      obtain ⟨gdir, gc, grng, gother⟩ := gf
      rcases hp.inv_cons with ⟨_, _, hy, hp2⟩ | ⟨hc, _⟩
      · rcases hp2.inv_cons with ⟨_, hcon, _, _⟩ | ⟨_, cu, hu, hp3⟩
        · exact Color.noConfusion hcon
        · have hcu : cu = .red := by rw [← balanced_colorOf hu]; exact huncle
          subst hcu
          cases hu with
          | red hul hur =>
              cases pdir <;> cases gdir
              · exact ih (.red (.black hx hy) (.black hul hur)) hp3
              · exact ih (.red (.black hul hur) (.black hx hy)) hp3
              · exact ih (.red (.black hy hx) (.black hul hur)) hp3
              · exact ih (.red (.black hul hur) (.black hy hx)) hp3
      · rw [hred] at hc; exact Color.noConfusion hc
  | case4 x pf hred gf rest2 huncle =>
      intro n ch hx hp
      rw [mem_insert_fixup_case23 x rest2 hred huncle]
      obtain ⟨pdir, pc, prng, pother⟩ := pf
      obtain ⟨gdir, gc, grng, gother⟩ := gf
      rcases hp.inv_cons with ⟨_, _, hy, hp2⟩ | ⟨hc, _⟩
      · rcases hp2.inv_cons with ⟨_, hcon, _, _⟩ | ⟨_, cu, hu, hp3⟩
        · exact Color.noConfusion hcon
        · have hcu : cu = .black := by
            cases cu with
            | red => exact absurd (balanced_colorOf hu) huncle
            | black => rfl
          subst hcu
          have hpc : pc = Color.red := hred
          subst hpc
          cases hx with
          | red hxl hxr =>
              rename_i xl xr xrng
              cases pdir <;> cases gdir
              · have hsub : Balanced
                    (.node .black (.node .red xl xrng xr) prng
                      (.node .red pother grng gother) : MTree) .black (n + 1) :=
                  .black (.red hxl hxr) (.red hy hu)
                have hfill := PathBal.fill hp3 hsub
                refine ⟨n0, ?_⟩
                show Balanced (blackenRoot (reassemble
                  (.node .black (.node .red xl xrng xr) prng
                    (.node .red pother grng gother)) rest2)) .black n0
                rw [blackenRoot_eq_self hfill]
                exact hfill
              · have hsub : Balanced
                    (.node .black (.node .red gother grng xl) xrng
                      (.node .red xr prng pother) : MTree) .black (n + 1) :=
                  .black (.red hu hxl) (.red hxr hy)
                have hfill := PathBal.fill hp3 hsub
                refine ⟨n0, ?_⟩
                show Balanced (blackenRoot (reassemble
                  (.node .black (.node .red gother grng xl) xrng
                    (.node .red xr prng pother)) rest2)) .black n0
                rw [blackenRoot_eq_self hfill]
                exact hfill
              · have hsub : Balanced
                    (.node .black (.node .red pother prng xl) xrng
                      (.node .red xr grng gother) : MTree) .black (n + 1) :=
                  .black (.red hy hxl) (.red hxr hu)
                have hfill := PathBal.fill hp3 hsub
                refine ⟨n0, ?_⟩
                show Balanced (blackenRoot (reassemble
                  (.node .black (.node .red pother prng xl) xrng
                    (.node .red xr grng gother)) rest2)) .black n0
                rw [blackenRoot_eq_self hfill]
                exact hfill
              · have hsub : Balanced
                    (.node .black (.node .red gother grng pother) prng
                      (.node .red xl xrng xr) : MTree) .black (n + 1) :=
                  .black (.red hu hy) (.red hxl hxr)
                have hfill := PathBal.fill hp3 hsub
                refine ⟨n0, ?_⟩
                show Balanced (blackenRoot (reassemble
                  (.node .black (.node .red gother grng pother) prng
                    (.node .red xl xrng xr)) rest2)) .black n0
                rw [blackenRoot_eq_self hfill]
                exact hfill
      · rw [hred] at hc; exact Color.noConfusion hc
  | case5 x pf rest hnred =>
      intro n ch hx hp
      rw [mem_insert_fixup_black x rest hnred]
      rcases hp.inv_cons with ⟨hc, _⟩ | ⟨hc, cy, hy, hp2⟩
      · exact absurd hc hnred
      · obtain ⟨pdir, pc, prng, pother⟩ := pf
        have hpc : pc = Color.black := hc
        subst hpc
        cases pdir
        · have hfill : Balanced (reassemble (.node .black x prng pother) rest)
              .black n0 := PathBal.fill hp2 (.black hx hy)
          refine ⟨n0, ?_⟩
          show Balanced (blackenRoot
            (reassemble (.node .black x prng pother) rest)) .black n0
          rw [blackenRoot_eq_self hfill]
          exact hfill
        · have hfill : Balanced (reassemble (.node .black pother prng x) rest)
              .black n0 := PathBal.fill hp2 (.black hy hx)
          refine ⟨n0, ?_⟩
          show Balanced (blackenRoot
            (reassemble (.node .black pother prng x) rest)) .black n0
          rw [blackenRoot_eq_self hfill]
          exact hfill

/-- mem_insert keeps the tree a red-black tree. -/
theorem mem_insert_tree_balanced {t : MTree} {n0 : Nat} {rng : Range}
    (ht : Balanced t .black n0) :
    ∃ n1, Balanced (mem_insert_tree t rng) .black n1 := by
  unfold mem_insert_tree
  exact mem_insert_fixup_balanced _ _ (.red .nil .nil)
    (insertPath_pathBal t rng.start ht .root)

theorem mem_delete_fixup_cons_red {x : MTree} {pf : Frame} {rest : Path}
    (hx : colorOf x = .red) :
    mem_delete_fixup x (pf :: rest)
      = reassemble (blackenRoot x) (pf :: rest) := by
  simp [mem_delete_fixup, hx]

theorem mem_delete_fixup_sibred_left_inl {x t : MTree} {pc : Color}
    {prng wrng : Range} {wl wr : MTree} {rest : Path}
    (hx : ¬ colorOf x = .red)
    (heq : mem_delete_fixup_cases x ⟨.left, .red, prng, wl⟩
      (⟨.left, .black, wrng, wr⟩ :: rest) = .inl t) :
    mem_delete_fixup x (⟨.left, pc, prng, .node .red wl wrng wr⟩ :: rest)
      = t := by
  simp [mem_delete_fixup, hx,
    show colorOf (MTree.node Color.red wl wrng wr) = Color.red from rfl, heq]

theorem mem_delete_fixup_sibred_left_inr {x x2 : MTree} {pc : Color}
    {prng wrng : Range} {wl wr : MTree} {rest : Path}
    (hx : ¬ colorOf x = .red)
    (heq : mem_delete_fixup_cases x ⟨.left, .red, prng, wl⟩
      (⟨.left, .black, wrng, wr⟩ :: rest) = .inr x2) :
    mem_delete_fixup x (⟨.left, pc, prng, .node .red wl wrng wr⟩ :: rest)
      = reassemble (blackenRoot x2) (⟨.left, .black, wrng, wr⟩ :: rest) := by
  simp [mem_delete_fixup, hx,
    show colorOf (MTree.node Color.red wl wrng wr) = Color.red from rfl, heq]

theorem mem_delete_fixup_sibred_right_inl {x t : MTree} {pc : Color}
    {prng wrng : Range} {wl wr : MTree} {rest : Path}
    (hx : ¬ colorOf x = .red)
    (heq : mem_delete_fixup_cases x ⟨.right, .red, prng, wr⟩
      (⟨.right, .black, wrng, wl⟩ :: rest) = .inl t) :
    mem_delete_fixup x (⟨.right, pc, prng, .node .red wl wrng wr⟩ :: rest)
      = t := by
  simp [mem_delete_fixup, hx,
    show colorOf (MTree.node Color.red wl wrng wr) = Color.red from rfl, heq]

theorem mem_delete_fixup_sibred_right_inr {x x2 : MTree} {pc : Color}
    {prng wrng : Range} {wl wr : MTree} {rest : Path}
    (hx : ¬ colorOf x = .red)
    (heq : mem_delete_fixup_cases x ⟨.right, .red, prng, wr⟩
      (⟨.right, .black, wrng, wl⟩ :: rest) = .inr x2) :
    mem_delete_fixup x (⟨.right, pc, prng, .node .red wl wrng wr⟩ :: rest)
      = reassemble (blackenRoot x2) (⟨.right, .black, wrng, wl⟩ :: rest) := by
  simp [mem_delete_fixup, hx,
    show colorOf (MTree.node Color.red wl wrng wr) = Color.red from rfl, heq]

theorem mem_delete_fixup_else_inl {x t : MTree} {pf : Frame} {rest : Path}
    (hx : ¬ colorOf x = .red) (hw : ¬ colorOf pf.other = .red)
    (heq : mem_delete_fixup_cases x pf rest = .inl t) :
    mem_delete_fixup x (pf :: rest) = t := by
  simp [mem_delete_fixup, hx, hw, heq]

theorem mem_delete_fixup_else_inr {x x2 : MTree} {pf : Frame} {rest : Path}
    (hx : ¬ colorOf x = .red) (hw : ¬ colorOf pf.other = .red)
    (heq : mem_delete_fixup_cases x pf rest = .inr x2) :
    mem_delete_fixup x (pf :: rest) = mem_delete_fixup x2 rest := by
  simp [mem_delete_fixup, hx, hw, heq]

/-- The delete fixup cases only recolor and rotate: the in-order
sequence of the tree rebuilt from their result is that of the tree
rebuilt from the input.  -/
theorem ranges_mem_delete_fixup_cases (x : MTree) (pf : Frame) (rest : Path) :
    (∀ t, mem_delete_fixup_cases x pf rest = .inl t →
        ranges t = ranges (reassemble x (pf :: rest)))
    ∧ (∀ x2, mem_delete_fixup_cases x pf rest = .inr x2 →
        ranges (reassemble x2 rest) = ranges (reassemble x (pf :: rest))) := by
  obtain ⟨pdir, pc, prng, pother⟩ := pf
  cases pother with
  | nil =>
      constructor
      · intro t heq
        simp only [mem_delete_fixup_cases, Sum.inl.injEq] at heq
        rw [← heq]
        simp [ranges_blackenRoot, ranges_reassemble]
      · intro x2 heq
        simp [mem_delete_fixup_cases] at heq
  | node wc wl wrng wr =>
      cases pdir
      case left =>
          by_cases h2 : colorOf wl = .black ∧ colorOf wr = .black
          · constructor
            · intro t heq
              simp [mem_delete_fixup_cases, h2.1, h2.2] at heq
            · intro x2 heq
              simp [mem_delete_fixup_cases, h2.1, h2.2] at heq
              rw [← heq]
              simp [ranges_reassemble, ranges, pathOuter]
          · by_cases h3 : colorOf wr = .black
            · cases wl with
              | nil => exact absurd ⟨rfl, h3⟩ h2
              | node wlc wll wlrng wlr =>
                  have hwlc : wlc = Color.red := by
                    cases wlc with
                    | red => rfl
                    | black => exact absurd ⟨rfl, h3⟩ h2
                  subst hwlc
                  constructor
                  · intro t heq
                    simp [mem_delete_fixup_cases, h3,
                      show colorOf (MTree.node Color.red wll wlrng wlr)
                        = Color.red from rfl] at heq
                    rw [← heq]
                    simp [ranges_blackenRoot, ranges_reassemble, ranges,
                      pathOuter]
                  · intro x2 heq
                    simp [mem_delete_fixup_cases, h3,
                      show colorOf (MTree.node Color.red wll wlrng wlr)
                        = Color.red from rfl] at heq
            · constructor
              · intro t heq
                simp [mem_delete_fixup_cases, h3] at heq
                rw [← heq]
                simp [ranges_blackenRoot, ranges_reassemble, ranges, pathOuter]
              · intro x2 heq
                simp [mem_delete_fixup_cases, h3] at heq
      case right =>
          by_cases h2 : colorOf wr = .black ∧ colorOf wl = .black
          · constructor
            · intro t heq
              simp [mem_delete_fixup_cases, h2.1, h2.2] at heq
            · intro x2 heq
              simp [mem_delete_fixup_cases, h2.1, h2.2] at heq
              rw [← heq]
              simp [ranges_reassemble, ranges, pathOuter]
          · by_cases h3 : colorOf wl = .black
            · cases wr with
              | nil => exact absurd ⟨rfl, h3⟩ h2
              | node wrc wrl wrrng wrr =>
                  have hwrc : wrc = Color.red := by
                    cases wrc with
                    | red => rfl
                    | black => exact absurd ⟨rfl, h3⟩ h2
                  subst hwrc
                  constructor
                  · intro t heq
                    simp [mem_delete_fixup_cases, h3,
                      show colorOf (MTree.node Color.red wrl wrrng wrr)
                        = Color.red from rfl] at heq
                    rw [← heq]
                    simp [ranges_blackenRoot, ranges_reassemble, ranges,
                      pathOuter]
                  · intro x2 heq
                    simp [mem_delete_fixup_cases, h3,
                      show colorOf (MTree.node Color.red wrl wrrng wrr)
                        = Color.red from rfl] at heq
            · constructor
              · intro t heq
                simp [mem_delete_fixup_cases, h3] at heq
                rw [← heq]
                simp [ranges_blackenRoot, ranges_reassemble, ranges, pathOuter]
              · intro x2 heq
                simp [mem_delete_fixup_cases, h3] at heq

/-- The delete fixup loop preserves the in-order range sequence. -/
theorem ranges_mem_delete_fixup : ∀ (p : Path) (x : MTree),
    ranges (mem_delete_fixup x p) = ranges (reassemble x p) := by
  intro p
  induction p with
  | nil => intro x; exact ranges_blackenRoot x
  | cons pf rest ih =>
      intro x
      by_cases hx : colorOf x = .red
      · rw [mem_delete_fixup_cons_red hx, ranges_reassemble, ranges_reassemble,
          ranges_blackenRoot]
      · by_cases hw : colorOf pf.other = .red
        · obtain ⟨pdir, pc, prng, pother⟩ := pf
          cases pother with
          | nil => simp [colorOf] at hw
          | node wc wl wrng wr =>
              have hwc : wc = .red := hw
              subst hwc
              cases pdir
              · cases heq : mem_delete_fixup_cases x ⟨.left, .red, prng, wl⟩
                    (⟨.left, .black, wrng, wr⟩ :: rest) with
                | inl t =>
                    rw [mem_delete_fixup_sibred_left_inl hx heq,
                      (ranges_mem_delete_fixup_cases x _ _).1 t heq,
                      ranges_reassemble, ranges_reassemble]
                    simp [ranges, pathOuter]
                | inr x2 =>
                    rw [mem_delete_fixup_sibred_left_inr hx heq]
                    have hs := (ranges_mem_delete_fixup_cases x _ _).2 x2 heq
                    rw [ranges_reassemble] at hs ⊢
                    rw [ranges_blackenRoot, hs, ranges_reassemble,
                      ranges_reassemble]
                    simp [ranges, pathOuter]
              · cases heq : mem_delete_fixup_cases x ⟨.right, .red, prng, wr⟩
                    (⟨.right, .black, wrng, wl⟩ :: rest) with
                | inl t =>
                    rw [mem_delete_fixup_sibred_right_inl hx heq,
                      (ranges_mem_delete_fixup_cases x _ _).1 t heq,
                      ranges_reassemble, ranges_reassemble]
                    simp [ranges, pathOuter]
                | inr x2 =>
                    rw [mem_delete_fixup_sibred_right_inr hx heq]
                    have hs := (ranges_mem_delete_fixup_cases x _ _).2 x2 heq
                    rw [ranges_reassemble] at hs ⊢
                    rw [ranges_blackenRoot, hs, ranges_reassemble,
                      ranges_reassemble]
                    simp [ranges, pathOuter]
        · cases heq : mem_delete_fixup_cases x pf rest with
          | inl t =>
              rw [mem_delete_fixup_else_inl hx hw heq]
              exact (ranges_mem_delete_fixup_cases x pf rest).1 t heq
          | inr x2 =>
              rw [mem_delete_fixup_else_inr hx hw heq, ih x2]
              exact (ranges_mem_delete_fixup_cases x pf rest).2 x2 heq

/-- Blackening a red balanced tree raises the black height by one. -/
theorem blackenRoot_red {t : MTree} {n : Nat} (h : Balanced t .red n) :
    Balanced (blackenRoot t) .black (n + 1) := by
  cases h with
  | red hl hr => exact .black hl hr

/-- A balance certificate implies red-black property 3. -/
theorem balanced_noRedRed : ∀ {t : MTree} {c : Color} {n : Nat},
    Balanced t c n → noRedRed t := by
  intro t
  induction t with
  | nil => intro c n _; trivial
  | node tc l rng r ihl ihr =>
      intro c n h
      cases h with
      | red hl hr =>
          exact ⟨fun _ => ⟨balanced_colorOf hl, balanced_colorOf hr⟩,
            ihl hl, ihr hr⟩
      | black hl hr =>
          exact ⟨fun hc => by simp at hc, ihl hl, ihr hr⟩

/-- A balance certificate implies red-black property 4 (well-defined
black height).  -/
theorem balanced_blackHeightOf : ∀ {t : MTree} {c : Color} {n : Nat},
    Balanced t c n → blackHeightOf t = some n := by
  intro t
  induction t with
  | nil => intro c n h; cases h; rfl
  | node tc l rng r ihl ihr =>
      intro c n h
      cases h with
      | red hl hr => simp [blackHeightOf, ihl hl, ihr hr]
      | black hl hr => simp [blackHeightOf, ihl hl, ihr hr]

/-- Reassembly along a concatenated path factors. -/
theorem reassemble_append (t : MTree) (p q : Path) :
    reassemble t (p ++ q) = reassemble (reassemble t p) q := by
  induction p generalizing t with
  | nil => rfl
  | cons f rest ih => simp [reassemble, ih]

/-- The delete descent decomposes the tree: the found node reassembled
along the collected path is the original tree.  -/
theorem delPath_reassemble (key : Nat) : ∀ (t : MTree) (p : Path)
    {zc : Color} {zl : MTree} {zrng : Range} {zr : MTree} {path : Path},
    delPath key t p = some (zc, zl, zrng, zr, path) →
    reassemble (.node zc zl zrng zr) path = reassemble t p := by
  intro t
  induction t with
  | nil => intro p zc zl zrng zr path h; simp [delPath] at h
  | node c l rng r ihl ihr =>
      intro p zc zl zrng zr path h
      rw [delPath] at h
      by_cases h1 : key < rng.start
      · rw [if_pos h1] at h
        rw [ihl _ h]
        rfl
      · rw [if_neg h1] at h
        by_cases h2 : rng.start < key
        · rw [if_pos h2] at h
          rw [ihr _ h]
          rfl
        · rw [if_neg h2] at h
          simp only [Option.some.injEq, Prod.mk.injEq] at h
          obtain ⟨rfl, rfl, rfl, rfl, rfl⟩ := h
          rfl

/-- The successor descent decomposes the subtree likewise. -/
theorem minSpine_reassemble : ∀ (t : MTree) (p : Path)
    {yc : Color} {yrng : Range} {yr : MTree} {path2 : Path},
    minSpine t p = some (yc, yrng, yr, path2) →
    reassemble (.node yc .nil yrng yr) path2 = reassemble t p := by
  intro t
  induction t with
  | nil => intro p yc yrng yr path2 h; simp [minSpine] at h
  | node c l rng r ihl ihr =>
      intro p yc yrng yr path2 h
      cases l with
      | nil =>
          simp only [minSpine, Option.some.injEq, Prod.mk.injEq] at h
          obtain ⟨rfl, rfl, rfl, rfl⟩ := h
          rfl
      | node cl ll lrng lr =>
          simp only [minSpine] at h
          rw [ihl _ h]
          rfl

/-- The successor descent is accumulator-polymorphic. -/
theorem minSpine_acc : ∀ (t : MTree) (p q : Path)
    {yc : Color} {yrng : Range} {yr : MTree} {q0 : Path},
    minSpine t q = some (yc, yrng, yr, q0) →
    minSpine t (q ++ p) = some (yc, yrng, yr, q0 ++ p) := by
  intro t
  induction t with
  | nil => intro p q yc yrng yr q0 h; simp [minSpine] at h
  | node c l rng r ihl ihr =>
      intro p q yc yrng yr q0 h
      cases l with
      | nil =>
          simp only [minSpine, Option.some.injEq, Prod.mk.injEq] at h
          obtain ⟨rfl, rfl, rfl, rfl⟩ := h
          simp [minSpine]
      | node cl ll lrng lr =>
          simp only [minSpine] at h
          have hh := ihl p (⟨.left, c, rng, r⟩ :: q) h
          simpa [minSpine] using hh

/-- All frames collected by the successor descent go left. -/
theorem minSpine_allLeft : ∀ (t : MTree) (p : Path)
    {yc : Color} {yrng : Range} {yr : MTree} {path2 : Path},
    minSpine t p = some (yc, yrng, yr, path2) →
    (∀ f ∈ p, f.dir = .left) → (∀ f ∈ path2, f.dir = .left) := by
  intro t
  induction t with
  | nil => intro p yc yrng yr path2 h _; simp [minSpine] at h
  | node c l rng r ihl ihr =>
      intro p yc yrng yr path2 h hall
      cases l with
      | nil =>
          simp only [minSpine, Option.some.injEq, Prod.mk.injEq] at h
          obtain ⟨rfl, rfl, rfl, rfl⟩ := h
          exact hall
      | node cl ll lrng lr =>
          simp only [minSpine] at h
          refine ihl _ h ?_
          intro f hf
          rcases List.mem_cons.mp hf with rfl | hf2
          · rfl
          · exact hall f hf2

/-- A path of left frames contributes no ranges before its hole. -/
theorem pathOuter_fst_of_allLeft : ∀ (p : Path),
    (∀ f ∈ p, f.dir = .left) → (pathOuter p).1 = [] := by
  intro p
  induction p with
  | nil => intro _; rfl
  | cons f rest ih =>
      intro hall
      have hf : f.dir = .left := hall f (List.mem_cons_self f rest)
      obtain ⟨fd, fc, frng, fo⟩ := f
      have hf2 : fd = Dir.left := hf
      subst hf2
      simp [pathOuter, ih (fun g hg => hall g (List.mem_cons_of_mem _ hg))]

/-- Deletion only removes ranges: the in-order range sequence after
mem_delete_tree is a sublist of the one before.  -/
theorem ranges_mem_delete_tree_sublist (t : MTree) (key : Nat) :
    List.Sublist (ranges (mem_delete_tree t key)) (ranges t) := by
  cases hdp : delPath key t [] with
  | none =>
      simp only [mem_delete_tree, hdp]
      exact List.Sublist.refl _
  | some z =>
      obtain ⟨zc, zl, zrng, zr, path⟩ := z
      have hre := delPath_reassemble key t [] hdp
      simp only [reassemble] at hre
      cases zl with
      | nil =>
          simp only [mem_delete_tree, hdp]
          have hres : ranges (if zc = .black then mem_delete_fixup zr path
              else reassemble zr path) = ranges (reassemble zr path) := by
            split
            · exact ranges_mem_delete_fixup path zr
            · rfl
          rw [hres, ← hre, ranges_reassemble, ranges_reassemble]
          simp only [ranges, List.nil_append, List.append_assoc,
            List.cons_append]
          exact (List.sublist_cons_self zrng _).append_left _
      | node zlc zll zlrng zlr =>
          cases zr with
          | nil =>
              simp only [mem_delete_tree, hdp]
              have hres : ranges (if zc = .black
                  then mem_delete_fixup (.node zlc zll zlrng zlr) path
                  else reassemble (.node zlc zll zlrng zlr) path)
                  = ranges (reassemble (.node zlc zll zlrng zlr) path) := by
                split
                · exact ranges_mem_delete_fixup path _
                · rfl
              rw [hres, ← hre, ranges_reassemble, ranges_reassemble]
              simp only [ranges, List.nil_append, List.append_assoc,
                List.cons_append]
              exact List.Sublist.append_left (List.Sublist.append_left
                (List.Sublist.cons₂ zlrng (List.Sublist.append_left
                  (List.sublist_cons_self zrng _) (ranges zlr)))
                (ranges zll)) _
          | node cr rl rrng rr =>
              cases hms : minSpine (.node cr rl rrng rr) [] with
              | none =>
                  simp only [mem_delete_tree, hdp, hms]
                  exact List.Sublist.refl _
              | some y =>
                  obtain ⟨yc, yrng, yr, path2⟩ := y
                  simp only [mem_delete_tree, hdp, hms]
                  have hmsre := minSpine_reassemble _ [] hms
                  simp only [reassemble] at hmsre
                  have hall := minSpine_allLeft _ [] hms
                    (by intro f hf; simp at hf)
                  have hP2a := pathOuter_fst_of_allLeft path2 hall
                  have hres : ranges (if yc = .black
                      then mem_delete_fixup yr (path2 ++
                        ⟨.right, zc, yrng, .node zlc zll zlrng zlr⟩ :: path)
                      else reassemble yr (path2 ++
                        ⟨.right, zc, yrng, .node zlc zll zlrng zlr⟩ :: path))
                      = ranges (reassemble yr (path2 ++
                        ⟨.right, zc, yrng, .node zlc zll zlrng zlr⟩ :: path)) := by
                    split
                    · exact ranges_mem_delete_fixup _ yr
                    · rfl
                  rw [hres, reassemble_append, ← hre, ← hmsre]
                  rw [show reassemble (reassemble yr path2)
                      (⟨.right, zc, yrng, .node zlc zll zlrng zlr⟩ :: path)
                      = reassemble (.node zc (.node zlc zll zlrng zlr) yrng
                        (reassemble yr path2)) path from rfl]
                  rw [ranges_reassemble, ranges_reassemble]
                  simp only [ranges, ranges_reassemble, hP2a, List.nil_append,
                    List.append_assoc, List.cons_append]
                  exact List.Sublist.append_left (List.Sublist.append_left
                    (List.Sublist.cons₂ zlrng (List.Sublist.append_left
                      (List.sublist_cons_self zrng _) (ranges zlr)))
                    (ranges zll)) _

/-- CLRS cases 2-4 of the delete rebalance restore balance: with x one
black level short, a black sibling of full height and a valid context,
an inl result is fully balanced, and an inr result (case 2) hands the
deficit to the parent subtree.  -/
theorem mem_delete_fixup_cases_balanced {n0 n : Nat} {x : MTree}
    (pf : Frame) (rest : Path)
    (hx : Balanced x .black n)
    (hw0 : Balanced pf.other .black (n + 1))
    (hpA0 : pf.c = .red → PathBal .black n0 rest .red (n + 1))
    (hpB0 : pf.c = .black → PathBal .black n0 rest .black (n + 2)) :
    (∀ t, mem_delete_fixup_cases x pf rest = .inl t → Balanced t .black n0)
    ∧ (∀ x2, mem_delete_fixup_cases x pf rest = .inr x2 →
        (pf.c = .black ∧ Balanced x2 .black (n + 1))
        ∨ (pf.c = .red ∧ colorOf x2 = .red
            ∧ Balanced (blackenRoot x2) .black (n + 1))) := by
  obtain ⟨pdir, pc, prng, pother⟩ := pf
  have hw : Balanced pother .black (n + 1) := hw0
  have hpA : pc = .red → PathBal .black n0 rest .red (n + 1) := hpA0
  have hpB : pc = .black → PathBal .black n0 rest .black (n + 2) := hpB0
  cases pother with
  | nil => cases hw
  | node wc wl wrng wr =>
      cases hw with
      | black hwl hwr =>
      rename_i cwl cwr
      cases pdir with
      | left =>
          by_cases h2 : colorOf wl = .black ∧ colorOf wr = .black
          · have hcwl : cwl = .black := by
              rw [← balanced_colorOf hwl]; exact h2.1
            have hcwr : cwr = .black := by
              rw [← balanced_colorOf hwr]; exact h2.2
            subst hcwl; subst hcwr
            constructor
            · intro t heq
              simp [mem_delete_fixup_cases, h2.1, h2.2] at heq
            · intro x2 heq
              simp [mem_delete_fixup_cases, h2.1, h2.2] at heq
              rw [← heq]
              cases pc with
              | black => exact Or.inl ⟨rfl, .black hx (.red hwl hwr)⟩
              | red => exact Or.inr ⟨rfl, rfl, .black hx (.red hwl hwr)⟩
          · by_cases h3 : colorOf wr = .black
            · have h4 : colorOf wl = .red := by
                cases hcl : colorOf wl with
                | red => rfl
                | black => exact absurd ⟨hcl, h3⟩ h2
              have hcwr : cwr = .black := by
                rw [← balanced_colorOf hwr]; exact h3
              subst hcwr
              cases wl with
              | nil => simp [colorOf] at h4
              | node wlc wll wlrng wlr =>
                  have hwlc : wlc = .red := h4
                  subst hwlc
                  have hcwl : cwl = .red := by
                    rw [← balanced_colorOf hwl]; rfl
                  subst hcwl
                  cases hwl with
                  | red hwll hwlr2 =>
                  constructor
                  · intro t heq
                    simp [mem_delete_fixup_cases, h3,
                      show colorOf (MTree.node Color.red wll wlrng wlr)
                        = Color.red from rfl] at heq
                    rw [← heq]
                    have hin1 : Balanced (MTree.node .black x prng wll)
                        .black (n + 1) := .black hx hwll
                    have hin2 : Balanced
                        (blackenRoot (MTree.node .red wlr wrng wr))
                        .black (n + 1) := .black hwlr2 hwr
                    cases pc with
                    | red =>
                        have hfill := PathBal.fill (hpA rfl)
                          (@Balanced.red _ _ wlrng _ hin1 hin2)
                        rw [blackenRoot_eq_self hfill]
                        exact hfill
                    | black =>
                        have hfill := PathBal.fill (hpB rfl)
                          (@Balanced.black _ _ wlrng _ _ _ hin1 hin2)
                        rw [blackenRoot_eq_self hfill]
                        exact hfill
                  · intro x2 heq
                    simp [mem_delete_fixup_cases, h3,
                      show colorOf (MTree.node Color.red wll wlrng wlr)
                        = Color.red from rfl] at heq
            · have h4 : colorOf wr = .red := by
                cases hcr : colorOf wr with
                | red => rfl
                | black => exact absurd hcr h3
              have hcwr : cwr = .red := by
                rw [← balanced_colorOf hwr]; exact h4
              subst hcwr
              constructor
              · intro t heq
                simp [mem_delete_fixup_cases, h3] at heq
                rw [← heq]
                have hin1 : Balanced (MTree.node .black x prng wl)
                    .black (n + 1) := .black hx hwl
                have hin2 := blackenRoot_red hwr
                cases pc with
                | red =>
                    have hfill := PathBal.fill (hpA rfl)
                      (@Balanced.red _ _ wrng _ hin1 hin2)
                    rw [blackenRoot_eq_self hfill]
                    exact hfill
                | black =>
                    have hfill := PathBal.fill (hpB rfl)
                      (@Balanced.black _ _ wrng _ _ _ hin1 hin2)
                    rw [blackenRoot_eq_self hfill]
                    exact hfill
              · intro x2 heq
                simp [mem_delete_fixup_cases, h3] at heq
      | right =>
          by_cases h2 : colorOf wr = .black ∧ colorOf wl = .black
          · have hcwl : cwl = .black := by
              rw [← balanced_colorOf hwl]; exact h2.2
            have hcwr : cwr = .black := by
              rw [← balanced_colorOf hwr]; exact h2.1
            subst hcwl; subst hcwr
            constructor
            · intro t heq
              simp [mem_delete_fixup_cases, h2.1, h2.2] at heq
            · intro x2 heq
              simp [mem_delete_fixup_cases, h2.1, h2.2] at heq
              rw [← heq]
              cases pc with
              | black => exact Or.inl ⟨rfl, .black (.red hwl hwr) hx⟩
              | red => exact Or.inr ⟨rfl, rfl, .black (.red hwl hwr) hx⟩
          · by_cases h3 : colorOf wl = .black
            · have h4 : colorOf wr = .red := by
                cases hcr : colorOf wr with
                | red => rfl
                | black => exact absurd ⟨hcr, h3⟩ h2
              have hcwl : cwl = .black := by
                rw [← balanced_colorOf hwl]; exact h3
              subst hcwl
              cases wr with
              | nil => simp [colorOf] at h4
              | node wrc wrl wrrng wrr =>
                  have hwrc : wrc = .red := h4
                  subst hwrc
                  have hcwr : cwr = .red := by
                    rw [← balanced_colorOf hwr]; rfl
                  subst hcwr
                  cases hwr with
                  | red hwrl hwrr =>
                  constructor
                  · intro t heq
                    simp [mem_delete_fixup_cases, h3,
                      show colorOf (MTree.node Color.red wrl wrrng wrr)
                        = Color.red from rfl] at heq
                    rw [← heq]
                    have hin1 : Balanced
                        (blackenRoot (MTree.node .red wl wrng wrl))
                        .black (n + 1) := .black hwl hwrl
                    have hin2 : Balanced (MTree.node .black wrr prng x)
                        .black (n + 1) := .black hwrr hx
                    cases pc with
                    | red =>
                        have hfill := PathBal.fill (hpA rfl)
                          (@Balanced.red _ _ wrrng _ hin1 hin2)
                        rw [blackenRoot_eq_self hfill]
                        exact hfill
                    | black =>
                        have hfill := PathBal.fill (hpB rfl)
                          (@Balanced.black _ _ wrrng _ _ _ hin1 hin2)
                        rw [blackenRoot_eq_self hfill]
                        exact hfill
                  · intro x2 heq
                    simp [mem_delete_fixup_cases, h3,
                      show colorOf (MTree.node Color.red wrl wrrng wrr)
                        = Color.red from rfl] at heq
            · have h4 : colorOf wl = .red := by
                cases hcl : colorOf wl with
                | red => rfl
                | black => exact absurd hcl h3
              have hcwl : cwl = .red := by
                rw [← balanced_colorOf hwl]; exact h4
              subst hcwl
              constructor
              · intro t heq
                simp [mem_delete_fixup_cases, h3] at heq
                rw [← heq]
                have hin1 := blackenRoot_red hwl
                have hin2 : Balanced (MTree.node .black wr prng x)
                    .black (n + 1) := .black hwr hx
                cases pc with
                | red =>
                    have hfill := PathBal.fill (hpA rfl)
                      (@Balanced.red _ _ wrng _ hin1 hin2)
                    rw [blackenRoot_eq_self hfill]
                    exact hfill
                | black =>
                    have hfill := PathBal.fill (hpB rfl)
                      (@Balanced.black _ _ wrng _ _ _ hin1 hin2)
                    rw [blackenRoot_eq_self hfill]
                    exact hfill
              · intro x2 heq
                simp [mem_delete_fixup_cases, h3] at heq

/-- alloc.c mem_delete_fixup restores all red-black invariants: from a
subtree one black level short in a valid context it produces a
balanced, black-rooted tree.  -/
theorem mem_delete_fixup_balanced {n0 : Nat} :
    ∀ (p : Path) (x : MTree) (n : Nat),
      (colorOf x = .red → Balanced (blackenRoot x) .black (n + 1)) →
      (¬ colorOf x = .red → Balanced x .black n) →
      PathBal .black n0 p .black (n + 1) →
      ∃ n1, Balanced (mem_delete_fixup x p) .black n1 := by
  intro p
  induction p with
  | nil =>
      intro x n hred hblack _
      by_cases hx : colorOf x = .red
      · refine ⟨n + 1, ?_⟩
        rw [show mem_delete_fixup x [] = blackenRoot x from rfl]
        exact hred hx
      · refine ⟨n, ?_⟩
        rw [show mem_delete_fixup x [] = blackenRoot x from rfl,
          blackenRoot_eq_self (hblack hx)]
        exact hblack hx
  | cons pf rest ih =>
      intro x n hred hblack hp
      by_cases hx : colorOf x = .red
      · rw [mem_delete_fixup_cons_red hx]
        exact ⟨n0, PathBal.fill hp (hred hx)⟩
      · have hxb := hblack hx
        by_cases hw : colorOf pf.other = .red
        · obtain ⟨pdir, pc, prng, pother⟩ := pf
          have hw2 : colorOf pother = .red := hw
          rcases PathBal.inv_cons hp with ⟨hpc, _, hsibA, _⟩
            | ⟨hpc, cw, hsibB, hrest⟩
          · have hsibA2 : Balanced pother .black (n + 1) := hsibA
            rw [balanced_colorOf hsibA2] at hw2
            exact absurd hw2 (by simp)
          · have hpc2 : pc = .black := hpc
            subst hpc2
            have hsib2 : Balanced pother cw (n + 1) := hsibB
            have hcw : cw = .red := by
              rw [← balanced_colorOf hsib2]; exact hw2
            subst hcw
            cases pother with
            | nil => simp [colorOf] at hw2
            | node wc wl wrng wr =>
                have hwc : wc = .red := hw2
                subst hwc
                cases hsib2 with
                | red hwl hwr =>
                cases pdir with
                | left =>
                    cases heq : mem_delete_fixup_cases x
                        ⟨.left, .red, prng, wl⟩
                        (⟨.left, .black, wrng, wr⟩ :: rest) with
                    | inl t =>
                        rw [mem_delete_fixup_sibred_left_inl hx heq]
                        have hc := mem_delete_fixup_cases_balanced
                          ⟨.left, .red, prng, wl⟩
                          (⟨.left, .black, wrng, wr⟩ :: rest) hxb hwl
                          (fun _ => PathBal.blackl .red hwr hrest)
                          (fun h => nomatch h)
                        exact ⟨n0, hc.1 t heq⟩
                    | inr x2 =>
                        rw [mem_delete_fixup_sibred_left_inr hx heq]
                        have hc := mem_delete_fixup_cases_balanced
                          ⟨.left, .red, prng, wl⟩
                          (⟨.left, .black, wrng, wr⟩ :: rest) hxb hwl
                          (fun _ => PathBal.blackl .red hwr hrest)
                          (fun h => nomatch h)
                        rcases hc.2 x2 heq with ⟨hpcB, _⟩ | ⟨_, _, hbx2⟩
                        · exact absurd hpcB (by simp)
                        · exact ⟨n0, PathBal.fill
                            (PathBal.blackl .black hwr hrest) hbx2⟩
                | right =>
                    cases heq : mem_delete_fixup_cases x
                        ⟨.right, .red, prng, wr⟩
                        (⟨.right, .black, wrng, wl⟩ :: rest) with
                    | inl t =>
                        rw [mem_delete_fixup_sibred_right_inl hx heq]
                        have hc := mem_delete_fixup_cases_balanced
                          ⟨.right, .red, prng, wr⟩
                          (⟨.right, .black, wrng, wl⟩ :: rest) hxb hwr
                          (fun _ => PathBal.blackr .red hwl hrest)
                          (fun h => nomatch h)
                        exact ⟨n0, hc.1 t heq⟩
                    | inr x2 =>
                        rw [mem_delete_fixup_sibred_right_inr hx heq]
                        have hc := mem_delete_fixup_cases_balanced
                          ⟨.right, .red, prng, wr⟩
                          (⟨.right, .black, wrng, wl⟩ :: rest) hxb hwr
                          (fun _ => PathBal.blackr .red hwl hrest)
                          (fun h => nomatch h)
                        rcases hc.2 x2 heq with ⟨hpcB, _⟩ | ⟨_, _, hbx2⟩
                        · exact absurd hpcB (by simp)
                        · exact ⟨n0, PathBal.fill
                            (PathBal.blackr .black hwl hrest) hbx2⟩
        · rcases PathBal.inv_cons hp with ⟨hpc, _, hsibA, hrestA⟩
            | ⟨hpc, cw, hsibB, hrestB⟩
          · cases heq : mem_delete_fixup_cases x pf rest with
            | inl t =>
                rw [mem_delete_fixup_else_inl hx hw heq]
                have hc := mem_delete_fixup_cases_balanced pf rest hxb hsibA
                  (fun _ => hrestA) (fun h => by simp [hpc] at h)
                exact ⟨n0, hc.1 t heq⟩
            | inr x2 =>
                rw [mem_delete_fixup_else_inr hx hw heq]
                have hc := mem_delete_fixup_cases_balanced pf rest hxb hsibA
                  (fun _ => hrestA) (fun h => by simp [hpc] at h)
                rcases hc.2 x2 heq with ⟨hpcB, _⟩ | ⟨_, hx2red, hbx2⟩
                · simp [hpc] at hpcB
                · exact ih x2 n (fun _ => hbx2)
                    (fun hnr => absurd hx2red hnr) (PathBal.toBlack hrestA)
          · have hcw : cw = .black := by
              rw [← balanced_colorOf hsibB]
              cases hc2 : colorOf pf.other with
              | red => exact absurd hc2 hw
              | black => rfl
            subst hcw
            cases heq : mem_delete_fixup_cases x pf rest with
            | inl t =>
                rw [mem_delete_fixup_else_inl hx hw heq]
                have hc := mem_delete_fixup_cases_balanced pf rest hxb hsibB
                  (fun h => by simp [hpc] at h) (fun _ => hrestB)
                exact ⟨n0, hc.1 t heq⟩
            | inr x2 =>
                rw [mem_delete_fixup_else_inr hx hw heq]
                have hc := mem_delete_fixup_cases_balanced pf rest hxb hsibB
                  (fun h => by simp [hpc] at h) (fun _ => hrestB)
                rcases hc.2 x2 heq with ⟨_, hbal⟩ | ⟨hpcR, _, _⟩
                · exact ih x2 (n + 1)
                    (fun hr => absurd hr
                      (by rw [balanced_colorOf hbal]; simp))
                    (fun _ => hbal) hrestB
                · simp [hpc] at hpcR

/-- The delete descent produces a valid context for the found node. -/
theorem delPath_pathBal {n0 : Nat} (key : Nat) :
    ∀ (t : MTree) (p : Path) {c : Color} {n : Nat}
      {zc : Color} {zl : MTree} {zrng : Range} {zr : MTree} {path : Path},
      Balanced t c n → PathBal .black n0 p c n →
      delPath key t p = some (zc, zl, zrng, zr, path) →
      ∃ m, Balanced (.node zc zl zrng zr) zc m
        ∧ PathBal .black n0 path zc m := by
  intro t
  induction t with
  | nil => intro p c n zc zl zrng zr path _ _ h; simp [delPath] at h
  | node tc l rng r ihl ihr =>
      intro p c n zc zl zrng zr path ht hp h
      rw [delPath] at h
      by_cases h1 : key < rng.start
      · rw [if_pos h1] at h
        cases ht with
        | red hl hr => exact ihl _ hl (.redl hr hp) h
        | black hl hr => exact ihl _ hl (.blackl _ hr hp) h
      · rw [if_neg h1] at h
        by_cases h2 : rng.start < key
        · rw [if_pos h2] at h
          cases ht with
          | red hl hr => exact ihr _ hr (.redr hl hp) h
          | black hl hr => exact ihr _ hr (.blackr _ hl hp) h
        · rw [if_neg h2] at h
          simp only [Option.some.injEq, Prod.mk.injEq] at h
          obtain ⟨rfl, rfl, rfl, rfl, rfl⟩ := h
          have hc : tc = c := balanced_colorOf ht
          subst hc
          exact ⟨n, ht, hp⟩

/-- The successor descent produces a valid context for the minimum. -/
theorem minSpine_pathBal {n0 : Nat} :
    ∀ (t : MTree) (p : Path) {c : Color} {n : Nat}
      {yc : Color} {yrng : Range} {yr : MTree} {path2 : Path},
      Balanced t c n → PathBal .black n0 p c n →
      minSpine t p = some (yc, yrng, yr, path2) →
      ∃ m, Balanced (.node yc .nil yrng yr) yc m
        ∧ PathBal .black n0 path2 yc m := by
  intro t
  induction t with
  | nil => intro p c n yc yrng yr path2 _ _ h; simp [minSpine] at h
  | node tc l rng r ihl ihr =>
      intro p c n yc yrng yr path2 ht hp h
      cases l with
      | nil =>
          simp only [minSpine, Option.some.injEq, Prod.mk.injEq] at h
          obtain ⟨rfl, rfl, rfl, rfl⟩ := h
          have hc : tc = c := balanced_colorOf ht
          subst hc
          exact ⟨n, ht, hp⟩
      | node cl2 ll lrng lr =>
          simp only [minSpine] at h
          cases ht with
          | red hl hr => exact ihl _ hl (.redl hr hp) h
          | black hl hr => exact ihl _ hl (.blackl _ hr hp) h

/-- alloc.c mem_delete preserves balance: deleting from a balanced
black-rooted tree yields a balanced black-rooted tree.  -/
theorem mem_delete_tree_balanced {t : MTree} {n0 : Nat} (key : Nat)
    (ht : Balanced t .black n0) :
    ∃ n1, Balanced (mem_delete_tree t key) .black n1 := by
  cases hdp : delPath key t [] with
  | none =>
      simp only [mem_delete_tree, hdp]
      exact ⟨n0, ht⟩
  | some z =>
      obtain ⟨zc, zl, zrng, zr, path⟩ := z
      obtain ⟨m, hz, hpPath⟩ := delPath_pathBal key t [] ht .root hdp
      cases zl with
      | nil =>
          simp only [mem_delete_tree, hdp]
          cases hz with
          | red hl hr =>
              cases hl
              rw [if_neg (by simp)]
              exact ⟨n0, PathBal.fill (PathBal.toBlack hpPath) hr⟩
          | black hl hr =>
              rename_i cl cr
              cases hl
              rw [if_pos rfl]
              refine mem_delete_fixup_balanced path zr 0 ?_ ?_ hpPath
              · intro hcr
                have h5 : cr = .red := by
                  rw [← balanced_colorOf hr]; exact hcr
                subst h5
                exact blackenRoot_red hr
              · intro hnr
                have h5 : cr = .black := by
                  rw [← balanced_colorOf hr]
                  cases hc2 : colorOf zr with
                  | red => exact absurd hc2 hnr
                  | black => rfl
                subst h5
                exact hr
      | node zlc zll zlrng zlr =>
          cases zr with
          | nil =>
              simp only [mem_delete_tree, hdp]
              cases hz with
              | red hl hr =>
                  cases hr
                  cases hl
              | black hl hr =>
                  rename_i cl cr
                  cases hr
                  rw [if_pos rfl]
                  refine mem_delete_fixup_balanced path _ 0 ?_ ?_ hpPath
                  · intro hcr
                    have h5 : cl = .red := by
                      rw [← balanced_colorOf hl]; exact hcr
                    subst h5
                    exact blackenRoot_red hl
                  · intro hnr
                    have h5 : cl = .black := by
                      rw [← balanced_colorOf hl]
                      cases hc2 : colorOf (MTree.node zlc zll zlrng zlr) with
                      | red => exact absurd hc2 hnr
                      | black => rfl
                    subst h5
                    exact hl
          | node cr2 rl rrng rr =>
              cases hms : minSpine (.node cr2 rl rrng rr) [] with
              | none =>
                  simp only [mem_delete_tree, hdp, hms]
                  exact ⟨n0, ht⟩
              | some y =>
                  obtain ⟨yc, yrng, yr, path2⟩ := y
                  simp only [mem_delete_tree, hdp, hms]
                  cases hz with
                  | red hl hr =>
                      have hctx : PathBal .black n0
                          (⟨.right, .red, yrng,
                            .node zlc zll zlrng zlr⟩ :: path) .black _ :=
                        .redr hl hpPath
                      have hms2 := minSpine_acc (.node cr2 rl rrng rr)
                        (⟨.right, .red, yrng,
                          .node zlc zll zlrng zlr⟩ :: path) [] hms
                      simp only [List.nil_append] at hms2
                      obtain ⟨my, hy, hp2⟩ :=
                        minSpine_pathBal _ _ hr hctx hms2
                      cases hy with
                      | red hynil hyr =>
                          cases hynil
                          rw [if_neg (by simp)]
                          exact ⟨n0, PathBal.fill (PathBal.toBlack hp2) hyr⟩
                      | black hynil hyr =>
                          rename_i cyl cyr
                          cases hynil
                          rw [if_pos rfl]
                          refine mem_delete_fixup_balanced _ yr 0 ?_ ?_ hp2
                          · intro hcr
                            have h5 : cyr = .red := by
                              rw [← balanced_colorOf hyr]; exact hcr
                            subst h5
                            exact blackenRoot_red hyr
                          · intro hnr
                            have h5 : cyr = .black := by
                              rw [← balanced_colorOf hyr]
                              cases hc2 : colorOf yr with
                              | red => exact absurd hc2 hnr
                              | black => rfl
                            subst h5
                            exact hyr
                  | black hl hr =>
                      rename_i cl cr
                      have hctx : PathBal .black n0
                          (⟨.right, .black, yrng,
                            .node zlc zll zlrng zlr⟩ :: path) cr _ :=
                        .blackr cr hl hpPath
                      have hms2 := minSpine_acc (.node cr2 rl rrng rr)
                        (⟨.right, .black, yrng,
                          .node zlc zll zlrng zlr⟩ :: path) [] hms
                      simp only [List.nil_append] at hms2
                      obtain ⟨my, hy, hp2⟩ :=
                        minSpine_pathBal _ _ hr hctx hms2
                      cases hy with
                      | red hynil hyr =>
                          cases hynil
                          rw [if_neg (by simp)]
                          exact ⟨n0, PathBal.fill (PathBal.toBlack hp2) hyr⟩
                      | black hynil hyr =>
                          rename_i cyl cyr
                          cases hynil
                          rw [if_pos rfl]
                          refine mem_delete_fixup_balanced _ yr 0 ?_ ?_ hp2
                          · intro hcr
                            have h5 : cyr = .red := by
                              rw [← balanced_colorOf hyr]; exact hcr
                            subst h5
                            exact blackenRoot_red hyr
                          · intro hnr
                            have h5 : cyr = .black := by
                              rw [← balanced_colorOf hyr]
                              cases hc2 : colorOf yr with
                              | red => exact absurd hc2 hnr
                              | black => rfl
                            subst h5
                            exact hyr

/-- Deletion preserves separation (it only drops ranges). -/
theorem sepT_mem_delete_tree {t : MTree} (hsep : SepT t) (key : Nat) :
    SepT (mem_delete_tree t key) := by
  rw [sepT_iff_sepList] at hsep ⊢
  obtain ⟨h1, h2⟩ := hsep
  have hs := ranges_mem_delete_tree_sublist t key
  exact ⟨fun r hr => h1 r (hs.subset hr), h2.sublist hs⟩

/-- Every reachable index state satisfies the full invariant:
separation, balance, and covering cheap-rejection bounds.  -/
theorem reach_meminv : ∀ {st : MemGlobal}, Reach st → MemInv st := by
  intro st h
  induction h with
  | init => exact ⟨trivial, ⟨0, .nil⟩, by simp [ranges], by simp [ranges]⟩
  | insert hst h0 hlt hdisj ih =>
      rename_i st0 rng
      obtain ⟨hsep, ⟨nb, hbal⟩, hbounds, hzero⟩ := ih
      refine ⟨sepT_mem_insert_tree hsep hlt hdisj,
        mem_insert_tree_balanced hbal, ?_, ?_⟩
      · intro q hq
        rw [show (mem_insert st0 rng).root = mem_insert_tree st0.root rng
            from rfl, ranges_mem_insert_tree] at hq
        have hq2 : q ∈ (splitByStart rng.start st0.root).1
            ++ (splitByStart rng.start st0.root).2 ∨ q = rng := by
          rcases List.mem_append.mp hq with h1 | h1
          · exact Or.inl (List.mem_append.mpr (Or.inl h1))
          · rcases List.mem_cons.mp h1 with h2 | h2
            · exact Or.inr h2
            · exact Or.inl (List.mem_append.mpr (Or.inr h2))
        rw [ranges_splitByStart] at hq2
        rcases hq2 with hq2 | rfl
        · have hb := hbounds q hq2
          have hne : ranges st0.root ≠ [] := by
            intro he
            rw [he] at hq2
            exact absurd hq2 (List.not_mem_nil q)
          have hminpos : st0.min_heap_address ≠ 0 := fun hz =>
            hne (hzero (Or.inl hz))
          have hmaxpos : st0.max_heap_address ≠ 0 := fun hz =>
            hne (hzero (Or.inr hz))
          refine ⟨?_, ?_, hb.2.2⟩
          · simp only [mem_insert]
            split
            · rename_i hcond
              rcases hcond with hz | hlt2
              · exact absurd hz hminpos
              · exact le_of_lt (lt_of_lt_of_le hlt2 hb.1)
            · exact hb.1
          · simp only [mem_insert]
            split
            · rename_i hcond
              rcases hcond with hz | hlt2
              · exact absurd hz hmaxpos
              · exact le_of_lt (lt_of_le_of_lt hb.2.1 hlt2)
            · exact hb.2.1
        · refine ⟨?_, ?_, h0⟩
          · simp only [mem_insert]
            split
            · exact le_refl _
            · rename_i hcond
              push_neg at hcond
              exact hcond.2
          · simp only [mem_insert]
            split
            · exact le_refl _
            · rename_i hcond
              push_neg at hcond
              exact hcond.2
      · intro hz
        exfalso
        rcases hz with hz | hz
        · simp only [mem_insert] at hz
          revert hz
          split
          · intro hz
            omega
          · rename_i hcond
            push_neg at hcond
            exact fun hz => absurd hz hcond.1
        · simp only [mem_insert] at hz
          revert hz
          split
          · intro hz
            omega
          · rename_i hcond
            push_neg at hcond
            exact fun hz => absurd hz hcond.1
  | delete hst ih =>
      rename_i st0 key
      obtain ⟨hsep, ⟨nb, hbal⟩, hbounds, hzero⟩ := ih
      refine ⟨sepT_mem_delete_tree hsep key,
        mem_delete_tree_balanced key hbal, ?_, ?_⟩
      · intro q hq
        exact hbounds q ((ranges_mem_delete_tree_sublist _ _).subset hq)
      · intro hz
        have he := hzero hz
        have h2 := ranges_mem_delete_tree_sublist st0.root key
        rw [he] at h2
        exact List.sublist_nil.mp h2

/-- C3: in every reachable index state, mem_find on an address inside
a registered [start,stop) range returns exactly that range, and on an
address outside every registered range returns the nil sentinel
(rendered none).  -/
theorem mem_find_correct (st : MemGlobal) (hst : Reach st) (a : Nat) :
    (∀ q ∈ ranges st.root, q.start ≤ a → a < q.stop →
        (mem_find st a).2 = some q)
    ∧ ((∀ q ∈ ranges st.root, a < q.start ∨ q.stop ≤ a) →
        (mem_find st a).2 = none) := by
  obtain ⟨hsep, _, hbounds, _⟩ := reach_meminv hst
  constructor
  · intro q hq h1 h2
    have hb := hbounds q hq
    rw [mem_find, if_neg (by omega)]
    exact mem_find_tree_mem hsep hq h1 h2
  · intro hout
    rw [mem_find]
    split
    · rfl
    · exact mem_find_tree_none hout

theorem mem_find_correct_witness :
    (mem_find mem_ex 150).2 = some ⟨100, 200, .cons⟩
    ∧ (mem_find mem_ex 250).2 = none :=
  ⟨(mem_find_correct mem_ex (Reach.insert (Reach.insert Reach.init
      (by decide) (by decide) (by decide))
      (by decide) (by decide) (by decide)) 150).1
      ⟨100, 200, .cons⟩ (by decide) (by decide) (by decide),
   (mem_find_correct mem_ex (Reach.insert (Reach.insert Reach.init
      (by decide) (by decide) (by decide))
      (by decide) (by decide) (by decide)) 250).2 (by decide)⟩

/-- C4: after every interleaving of insertions and deletions the
standard red-black invariants hold — the root is black, no red node
has a red child, every root-to-leaf path carries the same number of
black nodes — and the stored ranges are pairwise non-overlapping.  -/
theorem mem_index_red_black_invariants (st : MemGlobal) (hst : Reach st) :
    colorOf st.root = .black
    ∧ noRedRed st.root
    ∧ (∃ n, blackHeightOf st.root = some n)
    ∧ (ranges st.root).Pairwise disjointRanges := by
  obtain ⟨hsep, ⟨n, hbal⟩, _, _⟩ := reach_meminv hst
  refine ⟨balanced_colorOf hbal, balanced_noRedRed hbal,
    ⟨n, balanced_blackHeightOf hbal⟩, ?_⟩
  have hlist := (sepT_iff_sepList st.root).mp hsep
  exact hlist.2.imp (fun h => Or.inl h)

theorem mem_index_red_black_invariants_witness :
    colorOf mem_ex.root = .black
    ∧ noRedRed mem_ex.root
    ∧ (∃ n, blackHeightOf mem_ex.root = some n)
    ∧ (ranges mem_ex.root).Pairwise disjointRanges :=
  mem_index_red_black_invariants mem_ex (Reach.insert (Reach.insert
    Reach.init (by decide) (by decide) (by decide))
    (by decide) (by decide) (by decide))

/-- C7 counterexample: a find call does not update the process-wide
bounds — probing address 50, below every registered range of mem_ex,
returns the state entirely unchanged (min 100, max 420).  -/
theorem mem_find_updates_no_bounds :
    (mem_find mem_ex 50).1 = mem_ex
    ∧ (mem_find mem_ex 50).1.min_heap_address = 100
    ∧ (mem_find mem_ex 50).1.max_heap_address = 420 := by
  decide

/-- C7 (amended): mem_find only reads the cheap-rejection bounds,
returning the global state unchanged and rejecting an address outside
[min_heap_address, max_heap_address] without a tree walk; it is
mem_insert that updates the bounds, widening them to cover the
inserted range.  -/
theorem mem_find_frame_insert_updates_bounds (st : MemGlobal) (a : Nat)
    (rng : Range) :
    (mem_find st a).1 = st
    ∧ (a < st.min_heap_address ∨ st.max_heap_address < a →
        (mem_find st a).2 = none)
    ∧ (mem_insert st rng).min_heap_address ≤ rng.start
    ∧ rng.stop ≤ (mem_insert st rng).max_heap_address := by
  refine ⟨?_, ?_, ?_, ?_⟩
  · rw [mem_find]
    split <;> rfl
  · intro h
    rw [mem_find, if_pos h]
  · simp only [mem_insert]
    split
    · exact le_refl _
    · rename_i hcond
      push_neg at hcond
      exact hcond.2
  · simp only [mem_insert]
    split
    · exact le_refl _
    · rename_i hcond
      push_neg at hcond
      exact hcond.2

theorem mem_find_frame_insert_updates_bounds_witness :
    (mem_find mem_ex 50).2 = none
    ∧ (mem_insert mem_ex ⟨500, 600, .cons⟩).max_heap_address = 600 :=
  ⟨(mem_find_frame_insert_updates_bounds mem_ex 50 ⟨500, 600, .cons⟩).2.1
      (by decide),
   by decide⟩

end Mem

namespace Vec

theorem flGet_set_self {l : List (List Nat)} {i : Nat} (h : i < l.length)
    (v : List Nat) : (l.set i v).getD i [] = v := by
  simp [List.getD, List.getElem?_set_self', h]

theorem flGet_set_ne {l : List (List Nat)} {i j : Nat} (v : List Nat)
    (hne : i ≠ j) : (l.set i v).getD j [] = l.getD j [] := by
  simp [List.getD, List.getElem?_set_ne hne]

/-- The scan loop takes the first qualifying class at or above the
starting class, within the scanned window.  -/
theorem scan_free_lists_spec (h : VecHeap) (nbytes : Nat) :
    ∀ (fuel i idx : Nat),
      scan_free_lists h nbytes i fuel = some idx →
      i ≤ idx ∧ idx < i + fuel
      ∧ ((idx * 8 + LISP_VECTOR_MIN - nbytes = 0
          ∨ LISP_VECTOR_MIN ≤ idx * 8 + LISP_VECTOR_MIN - nbytes)
         ∧ flGet h idx ≠ [])
      ∧ (∀ j, i ≤ j → j < idx →
          ¬((j * 8 + LISP_VECTOR_MIN - nbytes = 0
              ∨ LISP_VECTOR_MIN ≤ j * 8 + LISP_VECTOR_MIN - nbytes)
            ∧ flGet h j ≠ [])) := by
  intro fuel
  induction fuel with
  | zero => intro i idx hscan; simp [scan_free_lists] at hscan
  | succ fuel ih =>
      intro i idx hscan
      rw [scan_free_lists] at hscan
      by_cases hacc : (i * 8 + LISP_VECTOR_MIN - nbytes = 0
          ∨ LISP_VECTOR_MIN ≤ i * 8 + LISP_VECTOR_MIN - nbytes)
          ∧ flGet h i ≠ []
      · rw [if_pos hacc] at hscan
        injection hscan with hscan
        subst hscan
        exact ⟨le_refl _, by omega, hacc, fun j hj1 hj2 => by omega⟩
      · rw [if_neg hacc] at hscan
        obtain ⟨h1, h2, h3, h4⟩ := ih (i + 1) idx hscan
        refine ⟨by omega, by omega, h3, ?_⟩
        intro j hj1 hj2
        by_cases hji : j = i
        · subst hji; exact hacc
        · exact h4 j (by omega) hj2

/-- C5: for a vector-like request at or below the large-object
threshold, the allocator scans the segregated free lists from the
request's exact size class upward, takes the head of the first class
that is nonempty and whose residual (class byte size minus request
bytes) is zero or at least LISP_VECTOR_MIN, and requeues the
split-off residual on the free list of the residual's own size class;
when no class qualifies it carves from a fresh vector block and
requeues the block remainder likewise.  -/
theorem allocate_vectorlike_free_list_policy (h : VecHeap) (nbytes : Nat)
    (hlen : h.free_lists.length = VBLOCK_NFREE_LISTS)
    (hmin : LISP_VECTOR_MIN ≤ nbytes)
    (hmax : nbytes ≤ LARGE_VECTOR_THRESH)
    (hal : nbytes % 8 = 0) :
    (∀ idx, scan_free_lists h nbytes (VINDEX nbytes)
        (VBLOCK_NFREE_LISTS - VINDEX nbytes) = some idx →
      VINDEX nbytes ≤ idx ∧ idx < VBLOCK_NFREE_LISTS
      ∧ (idx * 8 + LISP_VECTOR_MIN - nbytes = 0
          ∨ LISP_VECTOR_MIN ≤ idx * 8 + LISP_VECTOR_MIN - nbytes)
      ∧ flGet h idx ≠ []
      ∧ (∀ j, VINDEX nbytes ≤ j → j < idx →
          ¬((j * 8 + LISP_VECTOR_MIN - nbytes = 0
              ∨ LISP_VECTOR_MIN ≤ j * 8 + LISP_VECTOR_MIN - nbytes)
            ∧ flGet h j ≠ []))
      ∧ (allocate_vectorlike_small h nbytes).1 = (flGet h idx).headD 0
      ∧ (idx * 8 + LISP_VECTOR_MIN - nbytes ≠ 0 →
          flGet (allocate_vectorlike_small h nbytes).2
              (VINDEX (idx * 8 + LISP_VECTOR_MIN - nbytes))
            = ((flGet h idx).headD 0 + nbytes)
              :: flGet h (VINDEX (idx * 8 + LISP_VECTOR_MIN - nbytes))))
    ∧ (scan_free_lists h nbytes (VINDEX nbytes)
        (VBLOCK_NFREE_LISTS - VINDEX nbytes) = none →
      (allocate_vectorlike_small h nbytes).1 = h.next_block_addr
      ∧ flGet (allocate_vectorlike_small h nbytes).2
            (VINDEX (VBLOCK_NBYTES - nbytes))
        = (h.next_block_addr + nbytes)
          :: flGet h (VINDEX (VBLOCK_NBYTES - nbytes))) := by
  have hNF : VBLOCK_NFREE_LISTS = 510 := by decide
  have hTH : LARGE_VECTOR_THRESH = 2036 := by decide
  have hLVM : LISP_VECTOR_MIN = 16 := by decide
  have hNB : VBLOCK_NBYTES = 4088 := by decide
  constructor
  · intro idx hscan
    obtain ⟨hs1, hs2, ⟨hs3, hs4⟩, hs5⟩ :=
      scan_free_lists_spec h nbytes _ _ _ hscan
    have hidxlt : idx < VBLOCK_NFREE_LISTS := by
      rw [hNF] at hs2 ⊢
      simp only [VINDEX, hLVM] at hs2
      omega
    refine ⟨hs1, hidxlt, hs3, hs4, hs5, ?_, ?_⟩
    · unfold allocate_vectorlike_small
      rw [hscan]
      dsimp only
      split <;> rfl
    · intro hrest
      unfold allocate_vectorlike_small
      rw [hscan]
      dsimp only
      rw [if_pos hrest]
      simp only [add_vector_free_lists, flGet]
      have hne : idx ≠ VINDEX (idx * 8 + LISP_VECTOR_MIN - nbytes) := by
        simp only [VINDEX, hLVM] at hs1 hs3 hrest ⊢
        omega
      have hltlen : VINDEX (idx * 8 + LISP_VECTOR_MIN - nbytes)
          < (h.free_lists.set idx (flGet h idx).tail).length := by
        rw [List.length_set, hlen, hNF]
        simp only [VINDEX, hLVM] at hs1 ⊢
        rw [hNF] at hidxlt
        omega
      simp only [flGet] at hltlen
      rw [flGet_set_self hltlen, flGet_set_ne _ hne]
  · intro hscan
    have hr : VBLOCK_NBYTES - nbytes ≠ 0 := by
      rw [hNB]
      rw [hTH] at hmax
      omega
    constructor
    · unfold allocate_vectorlike_small
      rw [hscan]
      dsimp only
      split <;> rfl
    · unfold allocate_vectorlike_small
      rw [hscan]
      dsimp only
      rw [if_pos hr]
      simp only [add_vector_free_lists, flGet]
      have hltlen : VINDEX (VBLOCK_NBYTES - nbytes) < h.free_lists.length := by
        rw [hlen, hNF]
        simp only [VINDEX, hLVM, hNB]
        rw [hTH] at hmax
        rw [hLVM] at hmin
        omega
      rw [flGet_set_self hltlen]

set_option maxRecDepth 8192 in
theorem allocate_vectorlike_free_list_policy_witness :
    (allocate_vectorlike_small vec_ex 40).1 = 777
    ∧ flGet (allocate_vectorlike_small vec_ex 40).2 1 = [817] := by
  have hp := (allocate_vectorlike_free_list_policy vec_ex 40 (by decide)
    (by decide) (by decide) (by decide)).1 6 (by decide)
  refine ⟨?_, ?_⟩
  · rw [hp.2.2.2.2.2.1]
    decide
  · have h2 := hp.2.2.2.2.2.2 (by decide)
    rw [show VINDEX (6 * 8 + LISP_VECTOR_MIN - 40) = 1 from by decide] at h2
    rw [h2]
    decide

end Vec

namespace Mark

theorem markedUpTo_zero (N : Nat) : markedUpTo N 0 = ∅ := by
  ext i
  simp [markedUpTo]

theorem markedUpTo_full (N : Nat) : markedUpTo N (N + 1) = Finset.univ := by
  ext i
  simp [markedUpTo]

theorem markedUpTo_insert (N k : Nat) (hk : k ≤ N) :
    insert (⟨k, by omega⟩ : Fin (N + 1)) (markedUpTo N k)
      = markedUpTo N (k + 1) := by
  ext i
  simp [markedUpTo, Fin.ext_iff]
  omega

theorem markedUpTo_mem (N k : Nat) (j : Fin (N + 1)) :
    j ∈ markedUpTo N k ↔ j.val < k := by
  simp [markedUpTo]

/-- One lap of the marking loop around the cycle: with cells 0..k-1
already marked and cell k on the stack, the loop marks everything.  -/
theorem mark_cycle_loop (N : Nat) :
    ∀ m k (hk : k ≤ N), N - k = m →
      processMarkStack (cycleHeap N) (markedUpTo N k)
        [.ref ⟨k, by omega⟩] = Finset.univ := by
  intro m
  induction m with
  | zero =>
      intro k hk hm
      have hkN : N = k := by omega
      subst hkN
      rw [processMarkStack]
      rw [dif_neg (by simp [markedUpTo_mem])]
      simp only [cycleHeap]
      rw [if_pos (by simp)]
      rw [markedUpTo_insert N N (le_refl N), markedUpTo_full]
      rw [processMarkStack]
      rw [processMarkStack]
      rw [dif_pos (Finset.mem_univ _)]
      rw [processMarkStack]
  | succ m ih =>
      intro k hk hm
      have hkN : k < N := by omega
      rw [processMarkStack]
      rw [dif_neg (by simp [markedUpTo_mem])]
      simp only [cycleHeap]
      rw [if_pos (by simp)]
      rw [markedUpTo_insert N k hk]
      rw [processMarkStack]
      have hfin : (⟨(k + 1) % (N + 1), Nat.mod_lt _ (Nat.succ_pos N)⟩
            : Fin (N + 1))
          = ⟨k + 1, by omega⟩ := by
        simp [Fin.ext_iff]
        omega
      rw [hfin]
      exact ih (k + 1) (by omega) (by omega)

/-- Sweeping with everything marked frees nothing. -/
theorem sweepCells_univ {n : Nat} : ∀ l : List (Fin n),
    sweepCells Finset.univ l = (l.length, 0, []) := by
  intro l
  induction l with
  | nil => rfl
  | cons i rest ih => simp [sweepCells, ih]

/-- C8: for the circular structure of N+1 cons cells whose cdr chain
returns to the start, marking from the root terminates — the
already-marked check stops re-traversal despite the car tail loop and
the pushed cdr — with every cell marked, and the sweep then counts
all N+1 cells as used and none as free, chaining nothing onto the
free list.  -/
theorem mark_cycle_all_live (N : Nat) :
    processMarkStack (cycleHeap N) ∅ [.ref ⟨0, Nat.succ_pos N⟩]
      = Finset.univ
    ∧ sweepCells
        (processMarkStack (cycleHeap N) ∅ [.ref ⟨0, Nat.succ_pos N⟩])
        (List.finRange (N + 1))
      = (N + 1, 0, []) := by
  have h0 := mark_cycle_loop N N 0 (Nat.zero_le N) (by omega)
  rw [markedUpTo_zero] at h0
  refine ⟨h0, ?_⟩
  rw [h0, sweepCells_univ, List.length_finRange]

end Mark
